import Mathlib

/-!
Verification of the double-hashing product table of this repository
(`double_hashing.py` together with the record types of `models.py`).

The Python classes are embedded shallowly: Python `int` becomes `Nat`
(or `Int` where a value is decremented or may be `-1`), Python lists
become `List`, the slot array becomes `List (Option HashEntry)`, and a
`for i in range(size)` loop becomes structural recursion over the
explicit attempt list `upFrom 0 size`.  `int(num ** 0.5)` in the
primality test is embedded as `Nat.sqrt num`, its exact value for every
capacity small enough for the float square root to be exact.  The
`float` price field is carried as an opaque integer payload: the table
never computes on it.
-/

namespace DHash

/-- Product record (`models.Product`): a string key plus payload fields. -/
structure Product where
  ma_san_pham : String
  ten_san_pham : String
  gia : Int
  so_luong : Int
  mo_ta : String
deriving DecidableEq, Repr

/-- Slot entry (`models.HashEntry`): a product plus the tombstone flag. -/
structure HashEntry where
  product : Product
  is_deleted : Bool
deriving DecidableEq, Repr

/-- One diagnostic probe step recorded in `calculation_details["probe_steps"]`.
The Python code stores a dict; insert adds an `occupied_by` key for live
slots and search adds a `found_key` key, modelled as two optional fields. -/
structure ProbeStep where
  attempt : Nat
  formula : String
  position : Nat
  status : String
  occupied_by : Option String
  found_key : Option String
deriving DecidableEq, Repr

/-- The `calculation_details` bundle built at the start of insert/search. -/
structure CalcDetails where
  key : String
  ascii_sum : Nat
  ascii_breakdown : List (Char × Nat)
  size : Nat
  R : Nat
  h1 : Nat
  h1_formula : String
  h2 : Nat
  h2_formula : String
  probe_steps : List ProbeStep
deriving DecidableEq, Repr

/-- Collision log record (`CollisionLog`).  Its `collision_count`
attribute is set only in `__init__`, always as
`len(probe_sequence) - 1`, so it is modelled as the derived function
`CollisionLog.collision_count` below. -/
structure CollisionLog where
  key : String
  operation : String
  probe_sequence : List Nat
  resolution : String
  calculation_details : CalcDetails
deriving DecidableEq, Repr

/-- `self.collision_count = len(probe_sequence) - 1` from `CollisionLog.__init__`. -/
def CollisionLog.collision_count (log : CollisionLog) : Int :=
  (log.probe_sequence.length : Int) - 1

/-- The table state (`DoubleHashTable`): slot array, live-entry counter,
lifetime collision counter and the collision log. -/
structure DoubleHashTable where
  size : Nat
  table : List (Option HashEntry)
  count : Int
  collision_count : Nat
  collision_logs : List CollisionLog
deriving DecidableEq, Repr

/-- `DoubleHashTable.__init__`: `size` empty slots, zero counters, no logs. -/
def DoubleHashTable.create (size : Nat) : DoubleHashTable :=
  ⟨size, List.replicate size none, 0, 0, []⟩

/-- The list `[s, s+1, ..., s+n-1]`, the shallow embedding of Python's
`range` as an explicit attempt list. -/
def upFrom : Nat → Nat → List Nat
  | _, 0 => []
  | s, n + 1 => s :: upFrom (s + 1) n

/-- `sum(ord(char) for char in key)`. -/
def asciiSum (key : String) : Nat :=
  (key.data.map Char.toNat).sum

/-- `_hash1`: ASCII sum modulo the table size. -/
def DoubleHashTable.hash1 (t : DoubleHashTable) (key : String) : Nat :=
  asciiSum key % t.size

/-- Integer square root by downward search: the greatest `r ≤ n` with
`r * r ≤ n`.  Equal to `Nat.sqrt` (see `isqrt_eq_sqrt`), but defined by
structural recursion so that concrete tables evaluate inside proofs. -/
def isqrt (n : Nat) : Nat :=
  Nat.findGreatest (fun r => r * r ≤ n) n

/-- The inner `is_prime` of `_get_prime_less_than`: trial division over
`range(2, int(num ** 0.5) + 1)`. -/
def is_prime (num : Nat) : Bool :=
  if num < 2 then false
  else !((upFrom 2 (isqrt num + 1 - 2)).any (fun i => num % i == 0))

/-- The scan `for i in range(n - 1, 1, -1)` of `_get_prime_less_than`,
returning the first prime found going down, or the fallback `1`. -/
def primeScan : Nat → Nat
  | 0 => 1
  | 1 => 1
  | k + 2 => if is_prime (k + 2) then k + 2 else primeScan (k + 1)

/-- `_get_prime_less_than(n)` (`self` is unused by the Python method). -/
def get_prime_less_than (n : Nat) : Nat :=
  primeScan (n - 1)

/-- `_hash2`: `R - (ascii_sum mod R)` with `R` the largest prime below the size. -/
def DoubleHashTable.hash2 (t : DoubleHashTable) (key : String) : Nat :=
  let R := get_prime_less_than t.size
  R - asciiSum key % R

/-- `_probe`: `(hash1(key) + i * hash2(key)) mod size`. -/
def DoubleHashTable.probe (t : DoubleHashTable) (key : String) (i : Nat) : Nat :=
  (t.hash1 key + i * t.hash2 key) % t.size

/-- The probe formula string built for each diagnostic step. -/
def probeFormula (h1v h2v sz i pos : Nat) : String :=
  "(" ++ toString h1v ++ " + " ++ toString i ++ " × " ++ toString h2v ++ ") mod "
    ++ toString sz ++ " = (" ++ toString h1v ++ " + " ++ toString (i * h2v)
    ++ ") mod " ++ toString sz ++ " = " ++ toString pos

/-- The `calculation_details` value built before the probe loop; insert
and search build the identical structure. -/
def mkCalcDetails (t : DoubleHashTable) (key : String) : CalcDetails :=
  let s := asciiSum key
  let h1v := t.hash1 key
  let h2v := t.hash2 key
  let R := get_prime_less_than t.size
  { key := key
    ascii_sum := s
    ascii_breakdown := key.data.map (fun c => (c, c.toNat))
    size := t.size
    R := R
    h1 := h1v
    h1_formula := toString s ++ " mod " ++ toString t.size ++ " = " ++ toString h1v
    h2 := h2v
    h2_formula := toString R ++ " - (" ++ toString s ++ " mod " ++ toString R
      ++ ") = " ++ toString R ++ " - " ++ toString (s % R) ++ " = " ++ toString h2v
    probe_steps := [] }

/-- The diagnostic step dict built by each iteration of the insert loop
(`step_info` in the source): insert's status order tests occupancy first
and records the blocking key under `occupied_by`. -/
def insProbeStep (t : DoubleHashTable) (key : String) (i : Nat) : ProbeStep :=
  { attempt := i
    formula := probeFormula (t.hash1 key) (t.hash2 key) t.size i (t.probe key i)
    position := t.probe key i
    status := match t.table.getD (t.probe key i) none with
      | some e => if e.is_deleted then "deleted" else "occupied"
      | none => "empty"
    occupied_by := match t.table.getD (t.probe key i) none with
      | some e => if e.is_deleted then none else some e.product.ma_san_pham
      | none => none
    found_key := none }

/-- The diagnostic step dict built by each iteration of the search loop:
search's status order tests emptiness first and records the live key
under `found_key`. -/
def searchProbeStep (t : DoubleHashTable) (key : String) (i : Nat) : ProbeStep :=
  { attempt := i
    formula := probeFormula (t.hash1 key) (t.hash2 key) t.size i (t.probe key i)
    position := t.probe key i
    status := match t.table.getD (t.probe key i) none with
      | none => "empty"
      | some e => if e.is_deleted then "deleted" else "occupied"
    occupied_by := none
    found_key := match t.table.getD (t.probe key i) none with
      | some e => if e.is_deleted then none else some e.product.ma_san_pham
      | none => none }

/-- `calculation_details["probe_steps"].append(step_info)`. -/
def withStep (cd : CalcDetails) (s : ProbeStep) : CalcDetails :=
  { cd with probe_steps := cd.probe_steps ++ [s] }

/-- The probe loop of `insert`, one recursive call per remaining attempt.
Branch order follows the source: free (empty or tombstoned) slot first,
then the duplicate-key check, then the collision `continue` with the
first-touch counter bump at `i == 0`. -/
def DoubleHashTable.insertGo (t : DoubleHashTable) (product : Product)
    (seq : List Nat) (cd : CalcDetails) :
    List Nat → (Bool × String × List Nat) × DoubleHashTable
  | [] => ((false, "Could not insert (table full)", seq), t)
  | i :: rest =>
    let key := product.ma_san_pham
    let pos := t.probe key i
    let seq' := seq ++ [pos]
    let slot := t.table.getD pos none
    let cd' := withStep cd (insProbeStep t key i)
    let isFree : Bool := match slot with
      | none => true
      | some e => e.is_deleted
    if isFree then
      let t1 : DoubleHashTable :=
        { t with table := t.table.set pos (some ⟨product, false⟩),
                 count := t.count + 1 }
      if 0 < i then
        let resolution := "Giải quyết bằng Double Hashing sau " ++ toString i
          ++ " lần thăm dò. Vị trí cuối: " ++ toString pos
        let entry : CollisionLog :=
          ⟨key, "INSERT", seq', resolution, cd'⟩
        (((true, "Inserted at position " ++ toString pos, seq')),
          { t1 with collision_count := t1.collision_count + 1,
                    collision_logs := t1.collision_logs ++ [entry] })
      else ((true, "Inserted at position " ++ toString pos, seq'), t1)
    else if (match slot with
        | some e => e.product.ma_san_pham == key
        | none => false) then
      ((false, "Product code already exists!", seq'), t)
    else
      insertGo (if i == 0 then { t with collision_count := t.collision_count + 1 } else t)
        product seq' cd' rest

/-- `insert`: the full-table short circuit, then the probe loop over
`range(size)`. -/
def DoubleHashTable.insert (t : DoubleHashTable) (product : Product) :
    (Bool × String × List Nat) × DoubleHashTable :=
  if (t.size : Int) ≤ t.count then ((false, "Hash table is full!", []), t)
  else t.insertGo product [] (mkCalcDetails t product.ma_san_pham) (upFrom 0 t.size)

/-- The probe loop of `search`: stop at an empty slot (not found) or at a
live entry with the searched key (found); skip tombstones and other keys. -/
def DoubleHashTable.searchGo (t : DoubleHashTable) (key : String)
    (seq : List Nat) (cd : CalcDetails) :
    List Nat → (Option Product × Int × List Nat) × DoubleHashTable
  | [] => ((none, -1, seq), t)
  | i :: rest =>
    let pos := t.probe key i
    let seq' := seq ++ [pos]
    let slot := t.table.getD pos none
    let cd' := withStep cd (searchProbeStep t key i)
    match slot with
    | none =>
      if 0 < i then
        let resolution := "Tìm kiếm thất bại sau " ++ toString i
          ++ " lần thăm dò. Gặp slot trống tại vị trí " ++ toString pos
        ((none, -1, seq'),
          { t with collision_logs := t.collision_logs ++ [⟨key, "SEARCH", seq', resolution, cd'⟩] })
      else ((none, -1, seq'), t)
    | some e =>
      if !e.is_deleted && e.product.ma_san_pham == key then
        if 0 < i then
          let resolution := "Tìm thấy sau " ++ toString i ++ " lần thăm dò tại vị trí "
            ++ toString pos
          ((some e.product, (pos : Int), seq'),
            { t with collision_logs := t.collision_logs ++ [⟨key, "SEARCH", seq', resolution, cd'⟩] })
        else ((some e.product, (pos : Int), seq'), t)
      else searchGo t key seq' cd' rest

/-- `search`: the probe loop over `range(size)`; an exhausted loop returns
not-found with the full probe sequence. -/
def DoubleHashTable.search (t : DoubleHashTable) (key : String) :
    (Option Product × Int × List Nat) × DoubleHashTable :=
  t.searchGo key [] (mkCalcDetails t key) (upFrom 0 t.size)

/-- `delete`: delegate to `search`, then tombstone the found slot and
decrement the live counter. -/
def DoubleHashTable.delete (t : DoubleHashTable) (key : String) :
    (Bool × String × List Nat) × DoubleHashTable :=
  let r := t.search key
  match r.1.1 with
  | none => ((false, "Product not found!", r.1.2.2), r.2)
  | some _ =>
    let pos := r.1.2.1.toNat
    let t' := r.2
    ((true, "Deleted from position " ++ toString pos, r.1.2.2),
      { t' with
        table := t'.table.set pos (match t'.table.getD pos none with
          | some e => some { e with is_deleted := true }
          | none => none),
        count := t'.count - 1 })

/-- `HashEntry.to_dict` (the nested product dict is the product itself:
`dataclasses.asdict` is field-for-field). -/
structure HashEntryDict where
  product : Product
  is_deleted : Bool
deriving DecidableEq, Repr

def HashEntry.to_dict (e : HashEntry) : HashEntryDict :=
  ⟨e.product, e.is_deleted⟩

def HashEntry.from_dict (d : HashEntryDict) : HashEntry :=
  ⟨d.product, d.is_deleted⟩

/-- One exported collision-log dict, as produced by `get_collision_logs`. -/
structure CollisionLogDict where
  key : String
  operation : String
  probe_sequence : List Nat
  collision_count : Int
  resolution : String
  calculation_details : CalcDetails
deriving DecidableEq, Repr

/-- `get_collision_logs`: the log as a list of plain dicts. -/
def DoubleHashTable.get_collision_logs (t : DoubleHashTable) : List CollisionLogDict :=
  t.collision_logs.map (fun log =>
    ⟨log.key, log.operation, log.probe_sequence, log.collision_count,
      log.resolution, log.calculation_details⟩)

/-- The plain-value export of a whole table (`to_dict`). -/
structure TableDict where
  size : Nat
  count : Int
  collision_count : Nat
  collision_logs : List CollisionLogDict
  table : List (Option HashEntryDict)
deriving DecidableEq, Repr

def DoubleHashTable.to_dict (t : DoubleHashTable) : TableDict :=
  { size := t.size
    count := t.count
    collision_count := t.collision_count
    collision_logs := t.get_collision_logs
    table := t.table.map (Option.map HashEntry.to_dict) }

/-- `from_dict`: rebuild a table from its export.  The `CollisionLog`
constructor recomputes `collision_count` from the probe sequence, and the
slot list replaces the freshly constructed one wholesale. -/
def DoubleHashTable.from_dict (d : TableDict) : DoubleHashTable :=
  { size := d.size
    count := d.count
    collision_count := d.collision_count
    collision_logs := d.collision_logs.map (fun log =>
      ⟨log.key, log.operation, log.probe_sequence, log.resolution,
        log.calculation_details⟩)
    table := d.table.map (Option.map HashEntry.from_dict) }

/-- States reachable from a fresh table by insert, search and delete. -/
inductive Reachable : DoubleHashTable → Prop
  | create (n : Nat) : Reachable (DoubleHashTable.create n)
  | insert {t : DoubleHashTable} (p : Product) : Reachable t → Reachable (t.insert p).2
  | search {t : DoubleHashTable} (k : String) : Reachable t → Reachable (t.search k).2
  | delete {t : DoubleHashTable} (k : String) : Reachable t → Reachable (t.delete k).2

/-- A slot holds a live (non-tombstoned) entry. -/
def slotLive : Option HashEntry → Bool
  | some e => !e.is_deleted
  | none => false

/-- A slot holds a live entry with the given key. -/
def slotLiveKey (key : String) : Option HashEntry → Bool
  | some e => !e.is_deleted && e.product.ma_san_pham == key
  | none => false

/-- The slot at `pos` is empty or tombstoned (an insert would land there). -/
def DoubleHashTable.freeAt (t : DoubleHashTable) (pos : Nat) : Bool :=
  match t.table.getD pos none with
  | none => true
  | some e => e.is_deleted

/-- The slot at `pos` holds a live entry with key `key`. -/
def DoubleHashTable.liveKeyAt (t : DoubleHashTable) (key : String) (pos : Nat) : Bool :=
  slotLiveKey key (t.table.getD pos none)

/-- The slot at `pos` holds a live entry with a key other than `key`. -/
def DoubleHashTable.blockedAt (t : DoubleHashTable) (key : String) (pos : Nat) : Bool :=
  match t.table.getD pos none with
  | some e => !e.is_deleted && !(e.product.ma_san_pham == key)
  | none => false

/-- Some slot holds a live entry with the given key. -/
def DoubleHashTable.hasLiveKey (t : DoubleHashTable) (key : String) : Bool :=
  t.table.any (slotLiveKey key)

/-- Number of slots holding a live entry. -/
def DoubleHashTable.liveCount (t : DoubleHashTable) : Nat :=
  t.table.countP (fun s => slotLive s)

/-- Number of slots holding a live entry with the given key. -/
def DoubleHashTable.liveKeyCount (t : DoubleHashTable) (key : String) : Nat :=
  t.table.countP (fun s => slotLiveKey key s)

/-- Probe attempts `0 .. j-1` of `key` all hit a live slot of another key. -/
def DoubleHashTable.blockedUpTo (t : DoubleHashTable) (key : String) (j : Nat) : Bool :=
  (upFrom 0 j).all (fun i => t.blockedAt key (t.probe key i))

/-- The fields of one log entry that the claims constrain: key,
operation kind, probe sequence and collision count. -/
def logView (e : CollisionLog) : String × String × List Nat × Int :=
  (e.key, e.operation, e.probe_sequence, e.collision_count)

def logsView (l : List CollisionLog) : List (String × String × List Nat × Int) :=
  l.map logView

/-- Every log entry carries operation kind INSERT or SEARCH. -/
def logOpsOk (t : DoubleHashTable) : Bool :=
  t.collision_logs.all (fun e => e.operation == "INSERT" || e.operation == "SEARCH")

/-- The decision the search loop takes at one slot for a given key:
`some none` stops with not-found (empty slot), `some (some q)` stops
having found `q` (live matching entry), `none` keeps probing
(tombstone or different key). -/
def searchDecision (key : String) : Option HashEntry → Option (Option Product)
  | none => some none
  | some e =>
    if !e.is_deleted && e.product.ma_san_pham == key then some (some e.product)
    else none

/-- Specification-side definition (claim C4's wording): the greatest
prime strictly below `n`, or `1` when no prime lies below `n`. -/
def specLargestPrimeBelow (n : Nat) : Nat :=
  max 1 (Nat.findGreatest Nat.Prime (n - 1))

/-! Concrete products and tables used to witness and to refute claims.
With capacity 5 the keys "F" and "A" both start at slot 0
(`ascii 70 % 5 = ascii 65 % 5 = 0`); with capacity 4 the key "C"
(`h1 = 3`, `h2 = 2`) probes only slots 3 and 1, which "G" and "A" occupy. -/

def prodF : Product := ⟨"F", "PF", 1, 1, ""⟩

def prodA : Product := ⟨"A", "PA", 2, 1, ""⟩

def prodA2 : Product := ⟨"A", "PA2", 3, 1, ""⟩

def prodG : Product := ⟨"G", "PG", 4, 1, ""⟩

def prodC : Product := ⟨"C", "PC", 5, 1, ""⟩

/-- Capacity-5 table holding "F" at slot 0. -/
def t5F : DoubleHashTable := ((DoubleHashTable.create 5).insert prodF).2

/-- Capacity-5 table holding "F" at slot 0 and "A" at slot 1. -/
def t5FA : DoubleHashTable := (t5F.insert prodA).2

/-- `t5FA` after deleting "F": slot 0 tombstoned, "A" live at slot 1. -/
def t5FA_delF : DoubleHashTable := (t5FA.delete "F").2

/-- Capacity-4 table holding "G" at slot 3 and "A" at slot 1. -/
def t4GA : DoubleHashTable :=
  (((DoubleHashTable.create 4).insert prodG).2.insert prodA).2

/-- A full capacity-1 table. -/
def t1full : DoubleHashTable := ((DoubleHashTable.create 1).insert prodF).2

/-- The table obtained from `t5FA_delF` by inserting a second product
with the already-live key "A": the insert reuses the tombstone at slot 0. -/
def t5dupA : DoubleHashTable := (t5FA_delF.insert prodA2).2

/-- A fresh capacity-11 table (the spec's concrete hash scenario). -/
def t11 : DoubleHashTable := DoubleHashTable.create 11

/-! Basic lemmas about the attempt list. -/

theorem upFrom_append : ∀ (m s n : Nat), upFrom s (m + n) = upFrom s m ++ upFrom (s + m) n
  | 0, s, n => by simp [upFrom]
  | m + 1, s, n => by
    have h1 : m + 1 + n = (m + n) + 1 := by omega
    rw [h1]
    show s :: upFrom (s + 1) (m + n) = (s :: upFrom (s + 1) m) ++ upFrom (s + (m + 1)) n
    rw [upFrom_append m (s + 1) n]
    have h2 : s + 1 + m = s + (m + 1) := by omega
    rw [h2]
    rfl

theorem mem_upFrom : ∀ (n s i : Nat), i ∈ upFrom s n ↔ s ≤ i ∧ i < s + n
  | 0, s, i => by simp [upFrom]
  | n + 1, s, i => by
    show i ∈ s :: upFrom (s + 1) n ↔ _
    rw [List.mem_cons, mem_upFrom n (s + 1) i]
    omega

theorem upFrom_count_lt : ∀ (n s v : Nat), v < s → (upFrom s n).count v = 0
  | 0, _, _, _ => rfl
  | n + 1, s, v, h => by
    show ((s :: upFrom (s + 1) n).count v) = 0
    rw [List.count_cons, upFrom_count_lt n (s + 1) v (by omega)]
    simp [Nat.ne_of_gt h]

theorem count_zero_upFrom (j : Nat) : (upFrom 0 j).count 0 = (if 0 < j then 1 else 0) := by
  cases j with
  | zero => rfl
  | succ j =>
    show (((0 : Nat) :: upFrom 1 j).count 0) = _
    rw [List.count_cons, upFrom_count_lt j 1 0 (by omega)]
    simp

/-! Preservation lemmas for the probe loops. -/

theorem insertGo_size (p : Product) :
    ∀ (attempts : List Nat) (t : DoubleHashTable) (seq : List Nat) (cd : CalcDetails),
    (t.insertGo p seq cd attempts).2.size = t.size
    ∧ (t.insertGo p seq cd attempts).2.table.length = t.table.length := by
  intro attempts
  induction attempts with
  | nil => intro t seq cd; exact ⟨rfl, rfl⟩
  | cons i rest ih =>
    intro t seq cd
    simp only [DoubleHashTable.insertGo]
    split
    · -- landing in a free slot
      refine ⟨?_, ?_⟩ <;> (split <;> simp)
    · split
      · -- duplicate key: state returned unchanged
        exact ⟨rfl, rfl⟩
      · -- collision: continue with the (possibly bumped) state
        refine ⟨(ih _ _ _).1.trans ?_, (ih _ _ _).2.trans ?_⟩ <;> (split <;> rfl)

theorem searchGo_state (key : String) :
    ∀ (attempts : List Nat) (t : DoubleHashTable) (seq : List Nat) (cd : CalcDetails),
    (t.searchGo key seq cd attempts).2.size = t.size
    ∧ (t.searchGo key seq cd attempts).2.table = t.table
    ∧ (t.searchGo key seq cd attempts).2.count = t.count
    ∧ (t.searchGo key seq cd attempts).2.collision_count = t.collision_count := by
  intro attempts
  induction attempts with
  | nil => intro t seq cd; exact ⟨rfl, rfl, rfl, rfl⟩
  | cons i rest ih =>
    intro t seq cd
    simp only [DoubleHashTable.searchGo]
    split
    · -- empty slot: stop, possibly logging
      split <;> exact ⟨rfl, rfl, rfl, rfl⟩
    · -- occupied slot
      split
      · -- live match: stop, possibly logging
        split <;> exact ⟨rfl, rfl, rfl, rfl⟩
      · -- tombstone or other key: continue
        exact ih t _ _

/-- search leaves size, slot array, live counter and collision counter
unchanged; only the log can grow. -/
theorem search_state (t : DoubleHashTable) (key : String) :
    (t.search key).2.size = t.size
    ∧ (t.search key).2.table = t.table
    ∧ (t.search key).2.count = t.count
    ∧ (t.search key).2.collision_count = t.collision_count :=
  searchGo_state key (upFrom 0 t.size) t [] (mkCalcDetails t key)

/-! Claim C7: the TableFull short circuit. -/

/-- C7: when the live-entry counter has reached capacity, insert fails
with the table-full message, an empty probe sequence, and a completely
unchanged table state. -/
theorem insert_full_short_circuit (t : DoubleHashTable) (p : Product)
    (h : (t.size : Int) ≤ t.count) :
    t.insert p = ((false, "Hash table is full!", []), t) := by
  simp [DoubleHashTable.insert, h]

/-- Witness for C7 on a concrete full table of capacity 1. -/
theorem insert_full_short_circuit_witness :
    (t1full.size : Int) ≤ t1full.count
    ∧ t1full.insert prodA = ((false, "Hash table is full!", []), t1full) :=
  ⟨by decide, insert_full_short_circuit t1full prodA (by decide)⟩

/-! Claim C9: the export/import round trip is exact. -/

/-- C9: rebuilding a table from its plain-value export reproduces the
table exactly: capacity, live count, collision counter, every collision
log field and every slot. -/
theorem export_import_exact (t : DoubleHashTable) :
    DoubleHashTable.from_dict t.to_dict = t := by
  have hlogs : ∀ (l : List CollisionLog),
      (l.map (fun log => (⟨log.key, log.operation, log.probe_sequence,
          log.collision_count, log.resolution, log.calculation_details⟩ : CollisionLogDict))).map
        (fun d => (⟨d.key, d.operation, d.probe_sequence, d.resolution,
          d.calculation_details⟩ : CollisionLog)) = l := by
    intro l
    induction l with
    | nil => rfl
    | cons a l ih => simp [ih]
  have htab : ∀ (l : List (Option HashEntry)),
      (l.map (Option.map HashEntry.to_dict)).map (Option.map HashEntry.from_dict) = l := by
    intro l
    induction l with
    | nil => rfl
    | cons a l ih =>
      cases a with
      | none => simp [ih]
      | some e => simp [ih, HashEntry.to_dict, HashEntry.from_dict]
  cases t with
  | mk size table count cc logs =>
    simp only [DoubleHashTable.to_dict, DoubleHashTable.from_dict,
      DoubleHashTable.get_collision_logs]
    rw [hlogs logs, htab table]

/-! Claim C4: the hash derivation formulas.  First the trial-division
primality check and the downward scan are related to `Nat.Prime`. -/

theorem findGreatest_sq_le :
    ∀ (b n : Nat),
      Nat.findGreatest (fun r => r * r ≤ n) b * Nat.findGreatest (fun r => r * r ≤ n) b ≤ n
  | 0, n => by simp [Nat.findGreatest]
  | b + 1, n => by
    rw [Nat.findGreatest_succ]
    split
    · next h => exact h
    · exact findGreatest_sq_le b n

theorem isqrt_eq_sqrt (n : Nat) : isqrt n = Nat.sqrt n := by
  rw [isqrt]
  apply Nat.le_antisymm
  · exact Nat.le_sqrt.mpr (findGreatest_sq_le n n)
  · exact Nat.le_findGreatest (Nat.sqrt_le_self n) (Nat.sqrt_le n)

theorem is_prime_iff (n : Nat) : is_prime n = true ↔ Nat.Prime n := by
  rw [is_prime, isqrt_eq_sqrt]
  split
  · next h =>
    simp only [Bool.false_eq_true, false_iff]
    exact fun hp => absurd hp.two_le (by omega)
  · next h =>
    have hn : 2 ≤ n := by omega
    have hs : 0 < Nat.sqrt n := Nat.sqrt_pos.mpr (by omega)
    constructor
    · intro hp
      rw [Nat.prime_def_le_sqrt]
      refine ⟨hn, fun m hm2 hms hdvd => ?_⟩
      have hany : (upFrom 2 (Nat.sqrt n + 1 - 2)).any (fun i => n % i == 0) = false := by
        cases hx : (upFrom 2 (Nat.sqrt n + 1 - 2)).any (fun i => n % i == 0)
        · rfl
        · rw [hx] at hp; simp at hp
      rw [List.any_eq_false] at hany
      have hmem : m ∈ upFrom 2 (Nat.sqrt n + 1 - 2) := by
        rw [mem_upFrom]; omega
      have := hany m hmem
      simp only [beq_iff_eq] at this
      exact this (Nat.mod_eq_zero_of_dvd hdvd)
    · intro hp
      rw [Nat.prime_def_le_sqrt] at hp
      obtain ⟨-, hp2⟩ := hp
      have hany : (upFrom 2 (Nat.sqrt n + 1 - 2)).any (fun i => n % i == 0) = false := by
        rw [List.any_eq_false]
        intro m hm
        rw [mem_upFrom] at hm
        simp only [beq_iff_eq]
        intro h0
        exact hp2 m (by omega) (by omega) (Nat.dvd_of_mod_eq_zero h0)
      rw [hany]
      rfl

theorem primeScan_pos (k : Nat) : 1 ≤ primeScan k := by
  induction k using Nat.strong_induction_on with
  | _ k ih =>
    match k with
    | 0 => exact Nat.le_refl 1
    | 1 => exact Nat.le_refl 1
    | k + 2 =>
      rw [primeScan]
      split
      · omega
      · exact ih (k + 1) (by omega)

theorem primeScan_le (k : Nat) : primeScan k ≤ max 1 k := by
  induction k using Nat.strong_induction_on with
  | _ k ih =>
    match k with
    | 0 => simp [primeScan]
    | 1 => simp [primeScan]
    | k + 2 =>
      rw [primeScan]
      split
      · exact Nat.le_max_right 1 (k + 2)
      · calc primeScan (k + 1) ≤ max 1 (k + 1) := ih (k + 1) (by omega)
          _ ≤ max 1 (k + 2) := by omega

theorem primeScan_max {q : Nat} (hq : Nat.Prime q) :
    ∀ k, q ≤ k → q ≤ primeScan k ∧ Nat.Prime (primeScan k) := by
  intro k
  induction k using Nat.strong_induction_on with
  | _ k ih =>
    intro hqk
    match k with
    | 0 => exact absurd hq.two_le (by omega)
    | 1 => exact absurd hq.two_le (by omega)
    | k + 2 =>
      rw [primeScan]
      split
      · next hpr => exact ⟨hqk, (is_prime_iff (k + 2)).mp hpr⟩
      · next hpr =>
        have hne : q ≠ k + 2 := fun hEq => hpr (hEq ▸ (is_prime_iff q).mpr hq)
        exact ih (k + 1) (by omega) (by omega)

theorem primeScan_eq_one :
    ∀ k, (∀ q, Nat.Prime q → ¬ q ≤ k) → primeScan k = 1 := by
  intro k
  induction k using Nat.strong_induction_on with
  | _ k ih =>
    intro hno
    match k with
    | 0 => rfl
    | 1 => rfl
    | k + 2 =>
      rw [primeScan]
      split
      · next hpr =>
        exact absurd (Nat.le_refl (k + 2)) (hno (k + 2) ((is_prime_iff (k + 2)).mp hpr))
      · exact ih (k + 1) (by omega) (fun q hq hle => hno q hq (by omega))

/-- The downward scan agrees with the specification's wording: greatest
prime strictly below `n`, or `1` when none exists. -/
theorem get_prime_less_than_eq_spec (n : Nat) :
    get_prime_less_than n = specLargestPrimeBelow n := by
  rw [get_prime_less_than, specLargestPrimeBelow]
  by_cases hex : ∃ q, Nat.Prime q ∧ q ≤ n - 1
  · obtain ⟨q, hq, hqle⟩ := hex
    obtain ⟨hle, hpr⟩ := primeScan_max hq (n - 1) hqle
    have hg_pr : Nat.Prime (Nat.findGreatest Nat.Prime (n - 1)) :=
      Nat.findGreatest_spec hqle hq
    have hg_le : Nat.findGreatest Nat.Prime (n - 1) ≤ n - 1 := Nat.findGreatest_le (n - 1)
    have hq2 : 2 ≤ q := hq.two_le
    have h1 : primeScan (n - 1) ≤ Nat.findGreatest Nat.Prime (n - 1) :=
      Nat.le_findGreatest
        (le_trans (primeScan_le (n - 1)) (max_le (by omega) (Nat.le_refl _))) hpr
    have h2 : Nat.findGreatest Nat.Prime (n - 1) ≤ primeScan (n - 1) :=
      (primeScan_max hg_pr (n - 1) hg_le).1
    have hg2 : 2 ≤ Nat.findGreatest Nat.Prime (n - 1) := hg_pr.two_le
    rw [max_eq_right (by omega : 1 ≤ Nat.findGreatest Nat.Prime (n - 1))]
    omega
  · push_neg at hex
    have h1 : primeScan (n - 1) = 1 :=
      primeScan_eq_one (n - 1) (fun q hq hle => by have := hex q hq; omega)
    have h2 : Nat.findGreatest Nat.Prime (n - 1) = 0 :=
      Nat.findGreatest_eq_zero_iff.mpr (by intro m hm0 hmle hpm; have := hex m hpm; omega)
    simp [h1, h2]

/-- The step size is at least 1 and at most `R`, for every table. -/
theorem hash2_bounds (t : DoubleHashTable) (key : String) :
    1 ≤ t.hash2 key ∧ t.hash2 key ≤ get_prime_less_than t.size := by
  rw [DoubleHashTable.hash2]
  have hR : 1 ≤ get_prime_less_than t.size := primeScan_pos (t.size - 1)
  have hmod : asciiSum key % get_prime_less_than t.size < get_prime_less_than t.size :=
    Nat.mod_lt _ (by omega)
  omega

/-- C4: `h1` is the ASCII sum modulo capacity; `R` is the greatest prime
strictly below the capacity (or 1 when none exists); `h2 = R - (sum mod R)`
lies in `[1, R]`; and probing follows `(h1 + i * h2) mod capacity`. -/
theorem hash_derivation (t : DoubleHashTable) (key : String) (i : Nat)
    (_h : 1 ≤ t.size) :
    t.hash1 key = asciiSum key % t.size
    ∧ get_prime_less_than t.size = specLargestPrimeBelow t.size
    ∧ t.hash2 key = get_prime_less_than t.size - asciiSum key % get_prime_less_than t.size
    ∧ 1 ≤ t.hash2 key
    ∧ t.hash2 key ≤ get_prime_less_than t.size
    ∧ t.probe key i = (t.hash1 key + i * t.hash2 key) % t.size :=
  ⟨rfl, get_prime_less_than_eq_spec t.size, rfl,
    (hash2_bounds t key).1, (hash2_bounds t key).2, rfl⟩

/-- Witness for C4 at the spec's concrete scenario: capacity 11, key "A1". -/
theorem hash_derivation_witness :
    1 ≤ t11.size
    ∧ (t11.hash1 "A1" = asciiSum "A1" % t11.size
      ∧ get_prime_less_than t11.size = specLargestPrimeBelow t11.size
      ∧ t11.hash2 "A1" = get_prime_less_than t11.size - asciiSum "A1" % get_prime_less_than t11.size
      ∧ 1 ≤ t11.hash2 "A1"
      ∧ t11.hash2 "A1" ≤ get_prime_less_than t11.size
      ∧ t11.probe "A1" 1 = (t11.hash1 "A1" + 1 * t11.hash2 "A1") % t11.size) :=
  ⟨by decide, hash_derivation t11 "A1" 1 (by decide)⟩

/-! Counterexamples.  Each is a closed fact about a concrete reachable
table, refuting the quoted claim as stated. -/

/-- Refutes C1: in the reachable state `t5FA_delF` the key "A" occupies a
live slot, yet inserting another product with key "A" succeeds (landing in
the tombstone left at slot 0 by deleting "F") instead of failing with
DuplicateKey, after which two distinct slots hold live entries with the
same key. -/
theorem insert_reuses_tombstone_despite_live_duplicate :
    Reachable t5dupA
    ∧ t5FA_delF.hasLiveKey "A" = true
    ∧ prodA2.ma_san_pham = "A"
    ∧ (t5FA_delF.insert prodA2).1.1 = true
    ∧ t5dupA.liveKeyCount "A" = 2 :=
  ⟨Reachable.insert prodA2 (Reachable.delete "F" (Reachable.insert prodA
      (Reachable.insert prodF (Reachable.create 5)))),
    by decide, by decide, by decide, by decide⟩

/-- Refutes C2: the reachable capacity-4 table `t4GA` has live counter
2 < 4, the key "C" is not stored, yet its insert probes only the occupied
slots 3 and 1 (`h2("C") = 2` shares the factor 2 with the capacity) and
returns the loop-exhausted failure. -/
theorem insert_exhausts_below_capacity :
    Reachable t4GA
    ∧ t4GA.count = 2 ∧ t4GA.size = 4
    ∧ (t4GA.insert prodC).1 = (false, "Could not insert (table full)", [3, 1, 3, 1]) :=
  ⟨Reachable.insert prodA (Reachable.insert prodG (Reachable.create 4)),
    by decide, by decide, by decide⟩

/-- Refutes C3: inserting "A" into `t5F` collides with "F" at attempt 0
and lands at attempt 1, but the lifetime collision counter rises from 0
to 2 (first-touch bump plus landing bump), not by exactly one. -/
theorem collision_counter_double_increment :
    t5F.collision_count = 0
    ∧ t5F.blockedAt "A" (t5F.probe "A" 0) = true
    ∧ (t5F.insert prodA).1.1 = true
    ∧ (t5F.insert prodA).1.2.2 = [0, 1]
    ∧ (t5F.insert prodA).2.collision_count = 2 := by
  exact ⟨by decide, by decide, by decide, by decide, by decide⟩

/-- Refutes C5: in `t4GA` the live count 2 is below the capacity 4 and
key "C" is not stored live, yet the insert of `prodC` does not succeed. -/
theorem insert_fresh_key_below_capacity_fails :
    t4GA.count < (t4GA.size : Int)
    ∧ t4GA.hasLiveKey "C" = false
    ∧ prodC.ma_san_pham = "C"
    ∧ (t4GA.insert prodC).1.1 = false := by
  exact ⟨by decide, by decide, by decide, by decide⟩

/-- Refutes C6: in the duplicate-key state `t5dupA`, deleting "A"
succeeds (tombstoning slot 0), yet an immediate search for "A" still
returns a product instead of NotFound, because a second live copy sits
at slot 1. -/
theorem delete_then_search_still_finds_key :
    (t5dupA.delete "A").1.1 = true
    ∧ ((t5dupA.delete "A").2.search "A").1.1 = some prodA := by
  exact ⟨by decide, by decide⟩

/-- Refutes C8: inserting a second product with the live key "A" into
`t5FA` walks two slots (probe sequence `[0, 1]`) before failing with
DuplicateKey, and appends no collision-log entry. -/
theorem multi_probe_duplicate_insert_appends_no_log :
    (t5FA.insert prodA2).1 = (false, "Product code already exists!", [0, 1])
    ∧ (t5FA.insert prodA2).2.collision_logs.length = t5FA.collision_logs.length := by
  exact ⟨by decide, by decide⟩

/-! Shared helpers for the loop inductions. -/

theorem probe_congr {t₁ t₂ : DoubleHashTable} (h : t₁.size = t₂.size)
    (key : String) (i : Nat) : t₁.probe key i = t₂.probe key i := by
  simp [DoubleHashTable.probe, DoubleHashTable.hash1, DoubleHashTable.hash2, h]

theorem logsView_append (a b : List CollisionLog) :
    logsView (a ++ b) = logsView a ++ logsView b :=
  List.map_append logView a b

/-! Claim C3 machinery: an insert whose remaining attempts are all
positive and which succeeds bumps the lifetime counter once and appends
exactly one INSERT entry carrying the full probe sequence. -/

theorem insertGo_pos_success (p : Product) :
    ∀ (attempts : List Nat) (t : DoubleHashTable) (seq : List Nat) (cd : CalcDetails),
    (∀ i ∈ attempts, 0 < i) →
    (t.insertGo p seq cd attempts).1.1 = true →
    (t.insertGo p seq cd attempts).2.collision_count = t.collision_count + 1
    ∧ logsView (t.insertGo p seq cd attempts).2.collision_logs
      = logsView t.collision_logs
        ++ [(p.ma_san_pham, "INSERT", (t.insertGo p seq cd attempts).1.2.2,
            ((t.insertGo p seq cd attempts).1.2.2.length : Int) - 1)] := by
  intro attempts
  induction attempts with
  | nil =>
    intro t seq cd _ hsucc
    simp [DoubleHashTable.insertGo] at hsucc
  | cons i rest ih =>
    intro t seq cd hpos hsucc
    have hipos : 0 < i := hpos i (List.mem_cons_self i rest)
    simp only [DoubleHashTable.insertGo] at hsucc ⊢
    rcases hslot : t.table.getD (t.probe p.ma_san_pham i) none with _ | e
    · -- empty slot: landing with i > 0
      simp only [hslot, if_true, if_pos hipos] at hsucc ⊢
      exact ⟨by simp, by simp [logsView_append, logsView, logView, CollisionLog.collision_count]⟩
    · simp only [hslot] at hsucc ⊢
      cases hdel : e.is_deleted
      · -- live entry
        simp only [hdel, Bool.false_eq_true, if_false] at hsucc ⊢
        by_cases hkeyP : e.product.ma_san_pham = p.ma_san_pham
        · -- duplicate key: the insert fails, contradiction
          have hkey : (e.product.ma_san_pham == p.ma_san_pham) = true :=
            beq_iff_eq.mpr hkeyP
          simp only [hkey, if_true] at hsucc
          exact absurd hsucc (by decide)
        · -- other key: continue; i > 0 so no bump here
          have hkey : (e.product.ma_san_pham == p.ma_san_pham) = false := by
            simpa using hkeyP
          have h0 : (i == 0) = false := by
            simp [Nat.pos_iff_ne_zero.mp hipos]
          simp only [hkey, Bool.false_eq_true, if_false, h0] at hsucc ⊢
          exact ih t _ _ (fun m hm => hpos m (List.mem_cons_of_mem i hm)) hsucc
      · -- tombstoned slot: landing with i > 0
        simp only [hdel, if_true, if_pos hipos] at hsucc ⊢
        exact ⟨by simp, by simp [logsView_append, logsView, logView, CollisionLog.collision_count]⟩

/-- C3 (amended): an insert whose first probe hits a live slot of a
different key and which then lands bumps the lifetime collision counter
by exactly two — once for the first touch at attempt 0 and once at the
landing — and appends exactly one INSERT log entry whose collision count
is the probe-sequence length minus one. -/
theorem insert_first_collision_double_bump (t : DoubleHashTable) (p : Product)
    (hcnt : t.count < (t.size : Int))
    (hblocked : t.blockedAt p.ma_san_pham (t.probe p.ma_san_pham 0) = true)
    (hsucc : (t.insert p).1.1 = true) :
    (t.insert p).2.collision_count = t.collision_count + 2
    ∧ logsView (t.insert p).2.collision_logs
      = logsView t.collision_logs
        ++ [(p.ma_san_pham, "INSERT", (t.insert p).1.2.2,
            ((t.insert p).1.2.2.length : Int) - 1)] := by
  have hfull : ¬ ((t.size : Int) ≤ t.count) := by omega
  rw [DoubleHashTable.insert, if_neg hfull] at hsucc ⊢
  cases hsz : t.size with
  | zero =>
    rw [hsz] at hsucc
    simp [upFrom, DoubleHashTable.insertGo] at hsucc
  | succ m =>
    rw [hsz] at hsucc
    simp only [upFrom, Nat.zero_add] at hsucc ⊢
    simp only [DoubleHashTable.insertGo] at hsucc ⊢
    rcases hslot : t.table.getD (t.probe p.ma_san_pham 0) none with _ | e
    · simp only [DoubleHashTable.blockedAt, hslot] at hblocked
      exact absurd hblocked (by decide)
    · simp only [DoubleHashTable.blockedAt, hslot, Bool.and_eq_true,
        Bool.not_eq_true'] at hblocked
      obtain ⟨hdel, hkey⟩ := hblocked
      simp only [hslot, hdel, hkey, Bool.false_eq_true, if_false, beq_self_eq_true,
        if_true] at hsucc ⊢
      have hpos : ∀ i ∈ upFrom 1 m, 0 < i := by
        intro i hi
        rw [mem_upFrom] at hi
        omega
      obtain ⟨h1, h2⟩ := insertGo_pos_success p (upFrom 1 m)
        { t with collision_count := t.collision_count + 1 } _ _ hpos hsucc
      exact ⟨h1, h2⟩

/-- Witness for the amended C3 at the concrete collision of "A" with "F". -/
theorem insert_first_collision_double_bump_witness :
    t5F.count < (t5F.size : Int)
    ∧ t5F.blockedAt prodA.ma_san_pham (t5F.probe prodA.ma_san_pham 0) = true
    ∧ (t5F.insert prodA).1.1 = true
    ∧ ((t5F.insert prodA).2.collision_count = t5F.collision_count + 2
      ∧ logsView (t5F.insert prodA).2.collision_logs
        = logsView t5F.collision_logs
          ++ [(prodA.ma_san_pham, "INSERT", (t5F.insert prodA).1.2.2,
              (((t5F.insert prodA).1.2.2.length : Int) - 1))]) :=
  ⟨by decide, by decide, by decide,
    insert_first_collision_double_bump t5F prodA (by decide) (by decide) (by decide)⟩

/-! Claim C1 machinery: walking a blocked probe path only bumps the
collision counter (once, at attempt 0) and extends the probe sequence; a
live slot with the inserted key then triggers the DuplicateKey return. -/

theorem upFrom_succ_right (s n : Nat) : upFrom s (n + 1) = upFrom s n ++ [s + n] := by
  have h := upFrom_append n s 1
  rw [show upFrom (s + n) 1 = [s + n] from rfl] at h
  exact h

theorem insertGo_blocked_front (p : Product) :
    ∀ (l1 l2 : List Nat) (t : DoubleHashTable) (seq : List Nat) (cd : CalcDetails),
    (∀ i ∈ l1, t.blockedAt p.ma_san_pham (t.probe p.ma_san_pham i) = true) →
    ∃ cd', t.insertGo p seq cd (l1 ++ l2)
      = DoubleHashTable.insertGo
          { t with collision_count := t.collision_count + l1.count 0 } p
          (seq ++ l1.map (t.probe p.ma_san_pham)) cd' l2 := by
  intro l1
  induction l1 with
  | nil =>
    intro l2 t seq cd _
    exact ⟨cd, by simp⟩
  | cons i l1' ih =>
    intro l2 t seq cd hblocked
    have hbi := hblocked i (List.mem_cons_self i l1')
    rcases hslot : t.table.getD (t.probe p.ma_san_pham i) none with _ | e
    · simp only [DoubleHashTable.blockedAt, hslot] at hbi
      exact absurd hbi (by decide)
    · simp only [DoubleHashTable.blockedAt, hslot, Bool.and_eq_true,
        Bool.not_eq_true'] at hbi
      obtain ⟨hdel, hkey⟩ := hbi
      show ∃ cd', t.insertGo p seq cd (i :: (l1' ++ l2)) = _
      simp only [DoubleHashTable.insertGo, hslot, hdel, hkey, Bool.false_eq_true,
        if_false]
      cases hi0 : (i == 0)
      · -- i ≠ 0: no bump at this step
        have hne : i ≠ 0 := by simpa using hi0
        simp only [Bool.false_eq_true, if_false]
        obtain ⟨cd', heq⟩ := ih l2 t (seq ++ [t.probe p.ma_san_pham i]) _
          (fun m hm => hblocked m (List.mem_cons_of_mem i hm))
        rw [heq]
        refine ⟨cd', ?_⟩
        have hnum : t.collision_count + l1'.count 0
            = t.collision_count + (i :: l1').count 0 := by
          rw [List.count_cons, hi0]
          simp
        rw [hnum]
        simp [List.append_assoc]
      · -- i = 0: first-touch bump
        have h0 : i = 0 := by simpa using hi0
        subst h0
        simp only [if_true]
        obtain ⟨cd', heq⟩ := ih l2
          { t with collision_count := t.collision_count + 1 }
          (seq ++ [t.probe p.ma_san_pham 0]) _
          (fun m hm => hblocked m (List.mem_cons_of_mem 0 hm))
        rw [heq]
        refine ⟨cd', ?_⟩
        show DoubleHashTable.insertGo
            { t with collision_count := t.collision_count + 1 + l1'.count 0 } p
            ((seq ++ [t.probe p.ma_san_pham 0]) ++ List.map (t.probe p.ma_san_pham) l1')
            cd' l2 = _
        have hnum : t.collision_count + 1 + l1'.count 0
            = t.collision_count + ((0 : Nat) :: l1').count 0 := by
          rw [List.count_cons]
          simp
          omega
        rw [hnum]
        simp [List.append_assoc]

theorem insertGo_dup_head (p : Product) (t : DoubleHashTable) (seq : List Nat)
    (cd : CalcDetails) (j : Nat) (rest : List Nat)
    (hlive : t.liveKeyAt p.ma_san_pham (t.probe p.ma_san_pham j) = true) :
    t.insertGo p seq cd (j :: rest)
      = ((false, "Product code already exists!", seq ++ [t.probe p.ma_san_pham j]), t) := by
  rcases hslot : t.table.getD (t.probe p.ma_san_pham j) none with _ | e
  · rw [DoubleHashTable.liveKeyAt, hslot] at hlive
    simp [slotLiveKey] at hlive
  · rw [DoubleHashTable.liveKeyAt, hslot] at hlive
    simp only [slotLiveKey, Bool.and_eq_true, Bool.not_eq_true'] at hlive
    obtain ⟨hdel, hkey⟩ := hlive
    simp only [DoubleHashTable.insertGo, hslot, hdel, hkey, Bool.false_eq_true,
      if_false, if_true]

/-- C1 (amended): when every slot on the probe path strictly before the
live slot holding the key is occupied by a live entry of a different key
(in particular, no empty or tombstoned slot lies earlier), insert fails
with DuplicateKey, returns the probe sequence up to and including that
slot, and leaves the slot array, the live counter and the collision log
unchanged; the lifetime collision counter increments by one exactly when
the first probe hit a different live key.  (When a free slot lies
earlier, the insert lands there instead — see the counterexample — so
live-key uniqueness is not an invariant.) -/
theorem insert_duplicate_when_no_earlier_free (t : DoubleHashTable) (p : Product)
    (j : Nat)
    (hcnt : t.count < (t.size : Int))
    (hj : j < t.size)
    (hpath : t.blockedUpTo p.ma_san_pham j = true)
    (hlive : t.liveKeyAt p.ma_san_pham (t.probe p.ma_san_pham j) = true) :
    (t.insert p).1 = (false, "Product code already exists!",
        (upFrom 0 (j + 1)).map (t.probe p.ma_san_pham))
    ∧ (t.insert p).2.table = t.table
    ∧ (t.insert p).2.count = t.count
    ∧ (t.insert p).2.collision_logs = t.collision_logs
    ∧ (t.insert p).2.collision_count
        = t.collision_count + (if 0 < j then 1 else 0) := by
  rw [DoubleHashTable.insert, if_neg (by omega)]
  have hsplit : upFrom 0 t.size = upFrom 0 j ++ upFrom j (t.size - j) := by
    have h := upFrom_append j 0 (t.size - j)
    rw [Nat.zero_add] at h
    rw [← h]
    congr 1
    omega
  rw [hsplit]
  rw [DoubleHashTable.blockedUpTo, List.all_eq_true] at hpath
  obtain ⟨cdB, hB⟩ := insertGo_blocked_front p (upFrom 0 j) (upFrom j (t.size - j)) t []
    (mkCalcDetails t p.ma_san_pham) (fun i hi => hpath i hi)
  rw [hB]
  have hsj : upFrom j (t.size - j) = j :: upFrom (j + 1) (t.size - j - 1) := by
    have h : t.size - j = (t.size - j - 1) + 1 := by omega
    rw [h]
    rfl
  rw [hsj]
  rw [insertGo_dup_head p
    { t with collision_count := t.collision_count + List.count 0 (upFrom 0 j) }
    _ _ j _ hlive]
  refine ⟨?_, rfl, rfl, rfl, ?_⟩
  · have hmap : upFrom 0 (j + 1) = upFrom 0 j ++ [j] := by
      have := upFrom_succ_right 0 j
      rwa [Nat.zero_add] at this
    rw [hmap, List.map_append]
    simp [DoubleHashTable.probe, DoubleHashTable.hash1, DoubleHashTable.hash2]
  · rw [count_zero_upFrom]

/-- Witness for the amended C1: inserting a second "A" into `t5FA`,
where the live "A" at slot 1 is preceded only by the live "F" at slot 0,
fails with DuplicateKey and changes nothing but the collision counter. -/
theorem insert_duplicate_when_no_earlier_free_witness :
    t5FA.count < (t5FA.size : Int)
    ∧ 1 < t5FA.size
    ∧ t5FA.blockedUpTo prodA2.ma_san_pham 1 = true
    ∧ t5FA.liveKeyAt prodA2.ma_san_pham (t5FA.probe prodA2.ma_san_pham 1) = true
    ∧ ((t5FA.insert prodA2).1 = (false, "Product code already exists!",
          (upFrom 0 2).map (t5FA.probe prodA2.ma_san_pham))
      ∧ (t5FA.insert prodA2).2.table = t5FA.table
      ∧ (t5FA.insert prodA2).2.count = t5FA.count
      ∧ (t5FA.insert prodA2).2.collision_logs = t5FA.collision_logs
      ∧ (t5FA.insert prodA2).2.collision_count
          = t5FA.collision_count + (if 0 < 1 then 1 else 0)) :=
  ⟨by decide, by decide, by decide, by decide,
    insert_duplicate_when_no_earlier_free t5FA prodA2 1 (by decide) (by decide)
      (by decide) (by decide)⟩

/-! Claim C10 machinery: every log entry an operation appends carries
operation kind INSERT (from the insert loop) or SEARCH (from the search
loop); delete appends nothing of its own. -/

theorem insertGo_ops (p : Product) :
    ∀ (attempts : List Nat) (t : DoubleHashTable) (seq : List Nat) (cd : CalcDetails)
      (e : CollisionLog),
    e ∈ (t.insertGo p seq cd attempts).2.collision_logs →
    e ∈ t.collision_logs ∨ e.operation = "INSERT" := by
  intro attempts
  induction attempts with
  | nil => intro t seq cd e he; exact Or.inl he
  | cons i rest ih =>
    intro t seq cd e he
    simp only [DoubleHashTable.insertGo] at he
    rcases hslot : t.table.getD (t.probe p.ma_san_pham i) none with _ | en
    · simp only [hslot, if_true] at he
      split at he
      · rcases List.mem_append.mp he with h | h
        · exact Or.inl h
        · exact Or.inr (by simpa using congrArg CollisionLog.operation (List.mem_singleton.mp h))
      · exact Or.inl he
    · simp only [hslot] at he
      cases hdel : en.is_deleted
      · simp only [hdel, Bool.false_eq_true, if_false] at he
        cases hkey : (en.product.ma_san_pham == p.ma_san_pham)
        · simp only [hkey, Bool.false_eq_true, if_false] at he
          rcases ih _ _ _ e he with h | h
          · left
            rcases hi0 : (i == 0) <;> rw [hi0] at h <;> simpa using h
          · exact Or.inr h
        · simp only [hkey, if_true] at he
          exact Or.inl he
      · simp only [hdel, if_true] at he
        split at he
        · rcases List.mem_append.mp he with h | h
          · exact Or.inl h
          · exact Or.inr (by simpa using congrArg CollisionLog.operation (List.mem_singleton.mp h))
        · exact Or.inl he

theorem searchGo_ops (key : String) :
    ∀ (attempts : List Nat) (t : DoubleHashTable) (seq : List Nat) (cd : CalcDetails)
      (e : CollisionLog),
    e ∈ (t.searchGo key seq cd attempts).2.collision_logs →
    e ∈ t.collision_logs ∨ e.operation = "SEARCH" := by
  intro attempts
  induction attempts with
  | nil => intro t seq cd e he; exact Or.inl he
  | cons i rest ih =>
    intro t seq cd e he
    simp only [DoubleHashTable.searchGo] at he
    rcases hslot : t.table.getD (t.probe key i) none with _ | en
    · simp only [hslot] at he
      split at he
      · rcases List.mem_append.mp he with h | h
        · exact Or.inl h
        · exact Or.inr (by simpa using congrArg CollisionLog.operation (List.mem_singleton.mp h))
      · exact Or.inl he
    · simp only [hslot] at he
      cases hmatch : (!en.is_deleted && en.product.ma_san_pham == key)
      · simp only [hmatch, Bool.false_eq_true, if_false] at he
        exact ih _ _ _ e he
      · simp only [hmatch, if_true] at he
        split at he
        · rcases List.mem_append.mp he with h | h
          · exact Or.inl h
          · exact Or.inr (by simpa using congrArg CollisionLog.operation (List.mem_singleton.mp h))
        · exact Or.inl he

/-- C10: in every state reachable from a fresh table by insert, search
and delete, every collision-log entry carries operation kind "INSERT" or
"SEARCH"; no delete kind is ever recorded (delete logs only through its
inner search). -/
theorem log_operations_insert_or_search (t : DoubleHashTable)
    (h : Reachable t) : logOpsOk t = true := by
  induction h with
  | create n => rfl
  | @insert t p ht ih =>
    rw [logOpsOk, List.all_eq_true]
    intro e he
    rw [logOpsOk, List.all_eq_true] at ih
    by_cases hfull : (t.size : Int) ≤ t.count
    · rw [DoubleHashTable.insert, if_pos hfull] at he
      exact ih e he
    · rw [DoubleHashTable.insert, if_neg hfull] at he
      rcases insertGo_ops p _ _ _ _ e he with h | h
      · exact ih e h
      · simp [h]
  | @search t k ht ih =>
    rw [logOpsOk, List.all_eq_true]
    intro e he
    rw [logOpsOk, List.all_eq_true] at ih
    rcases searchGo_ops k _ _ _ _ e he with h | h
    · exact ih e h
    · simp [h]
  | @delete t k ht ih =>
    rw [logOpsOk, List.all_eq_true]
    intro e he
    rw [logOpsOk, List.all_eq_true] at ih
    rw [DoubleHashTable.delete] at he
    rcases hfound : (t.search k).1.1 with _ | q
    · rw [hfound] at he
      simp only at he
      rcases searchGo_ops k _ _ _ _ e he with h | h
      · exact ih e h
      · simp [h]
    · rw [hfound] at he
      simp only at he
      rcases searchGo_ops k _ _ _ _ e he with h | h
      · exact ih e h
      · simp [h]

/-- Witness for C10 on a concrete reachable table with one INSERT entry. -/
theorem log_operations_insert_or_search_witness :
    Reachable t5FA ∧ logOpsOk t5FA = true :=
  have hr : Reachable t5FA :=
    Reachable.insert prodA (Reachable.insert prodF (Reachable.create 5))
  ⟨hr, log_operations_insert_or_search t5FA hr⟩

/-! Claim C8 machinery: exact characterization of when the two probe
loops append a collision-log entry.  The attempt list is `upFrom a n`
with `a` the number of slots already visited, so the code's `i > 0` test
coincides with "the probe sequence visits more than one slot". -/

theorem insertGo_logs (p : Product) :
    ∀ (n a : Nat) (t : DoubleHashTable) (seq : List Nat) (cd : CalcDetails),
    seq.length = a →
    ((t.insertGo p seq cd (upFrom a n)).1.1 = true →
      ((1 < (t.insertGo p seq cd (upFrom a n)).1.2.2.length →
        (t.insertGo p seq cd (upFrom a n)).2.collision_logs.take t.collision_logs.length
            = t.collision_logs
        ∧ logsView (t.insertGo p seq cd (upFrom a n)).2.collision_logs
            = logsView t.collision_logs
              ++ [(p.ma_san_pham, "INSERT", (t.insertGo p seq cd (upFrom a n)).1.2.2,
                  ((t.insertGo p seq cd (upFrom a n)).1.2.2.length : Int) - 1)])
      ∧ ((t.insertGo p seq cd (upFrom a n)).1.2.2.length ≤ 1 →
        (t.insertGo p seq cd (upFrom a n)).2.collision_logs = t.collision_logs)))
    ∧ ((t.insertGo p seq cd (upFrom a n)).1.1 = false →
      (t.insertGo p seq cd (upFrom a n)).2.collision_logs = t.collision_logs) := by
  intro n
  induction n with
  | zero =>
    intro a t seq cd hseq
    exact ⟨(fun h => nomatch h), fun _ => by trivial⟩
  | succ n ih =>
    intro a t seq cd hseq
    show (((t.insertGo p seq cd (a :: upFrom (a + 1) n)).1.1 = true → _)
      ∧ ((t.insertGo p seq cd (a :: upFrom (a + 1) n)).1.1 = false → _))
    simp only [DoubleHashTable.insertGo]
    rcases hslot : t.table.getD (t.probe p.ma_san_pham a) none with _ | e
    · -- empty slot: landing
      simp only [hslot, if_true]
      by_cases ha : 0 < a
      · rw [if_pos ha]
        refine ⟨fun _ => ⟨fun _ => ⟨List.take_left _ _, ?_⟩, fun hlen => ?_⟩,
          fun h => nomatch h⟩
        · rw [logsView_append]
          rfl
        · rw [List.length_append, hseq, List.length_singleton] at hlen
          omega
      · rw [if_neg ha]
        refine ⟨fun _ => ⟨fun hlen => ?_, fun _ => by trivial⟩, fun h => nomatch h⟩
        rw [List.length_append, hseq, List.length_singleton] at hlen
        omega
    · simp only [hslot]
      cases hdel : e.is_deleted
      · simp only [hdel, Bool.false_eq_true, if_false]
        by_cases hkeyP : e.product.ma_san_pham = p.ma_san_pham
        · -- duplicate key: fail, state unchanged
          have hkey : (e.product.ma_san_pham == p.ma_san_pham) = true :=
            beq_iff_eq.mpr hkeyP
          simp only [hkey, if_true]
          exact ⟨(fun h => nomatch h), fun _ => by trivial⟩
        · -- different live key: continue
          have hkey : (e.product.ma_san_pham == p.ma_san_pham) = false := by
            simpa using hkeyP
          simp only [hkey, Bool.false_eq_true, if_false]
          have hseq' : (seq ++ [t.probe p.ma_san_pham a]).length = a + 1 := by
            rw [List.length_append, hseq]
            rfl
          by_cases h0P : a = 0
          · have h0 : (a == 0) = true := beq_iff_eq.mpr h0P
            simp only [h0, if_true]
            exact ih (a + 1) { t with collision_count := t.collision_count + 1 } _ _ hseq'
          · have h0 : (a == 0) = false := by simpa using h0P
            simp only [h0, Bool.false_eq_true, if_false]
            exact ih (a + 1) t _ _ hseq'
      · -- tombstone: landing
        simp only [hdel, if_true]
        by_cases ha : 0 < a
        · rw [if_pos ha]
          refine ⟨fun _ => ⟨fun _ => ⟨List.take_left _ _, ?_⟩, fun hlen => ?_⟩,
            fun h => nomatch h⟩
          · rw [logsView_append]
            rfl
          · rw [List.length_append, hseq, List.length_singleton] at hlen
            omega
        · rw [if_neg ha]
          refine ⟨fun _ => ⟨fun hlen => ?_, fun _ => by trivial⟩, fun h => nomatch h⟩
          rw [List.length_append, hseq, List.length_singleton] at hlen
          omega

theorem searchGo_logs (key : String) :
    ∀ (n a : Nat) (t : DoubleHashTable) (seq : List Nat) (cd : CalcDetails),
    seq.length = a →
    (seq = [] ∨ ∃ last, seq.getLast? = some last ∧ t.table.getD last none ≠ none) →
    (((t.searchGo key seq cd (upFrom a n)).1.1.isSome = true →
      ((1 < (t.searchGo key seq cd (upFrom a n)).1.2.2.length →
        (t.searchGo key seq cd (upFrom a n)).2.collision_logs.take t.collision_logs.length
            = t.collision_logs
        ∧ logsView (t.searchGo key seq cd (upFrom a n)).2.collision_logs
            = logsView t.collision_logs
              ++ [(key, "SEARCH", (t.searchGo key seq cd (upFrom a n)).1.2.2,
                  ((t.searchGo key seq cd (upFrom a n)).1.2.2.length : Int) - 1)])
      ∧ ((t.searchGo key seq cd (upFrom a n)).1.2.2.length ≤ 1 →
        (t.searchGo key seq cd (upFrom a n)).2.collision_logs = t.collision_logs)))
    ∧ ((t.searchGo key seq cd (upFrom a n)).1.1 = none →
      ((t.table.getD ((t.searchGo key seq cd (upFrom a n)).1.2.2.getLast?.getD 0) none = none →
        ((1 < (t.searchGo key seq cd (upFrom a n)).1.2.2.length →
          (t.searchGo key seq cd (upFrom a n)).2.collision_logs.take t.collision_logs.length
              = t.collision_logs
          ∧ logsView (t.searchGo key seq cd (upFrom a n)).2.collision_logs
              = logsView t.collision_logs
                ++ [(key, "SEARCH", (t.searchGo key seq cd (upFrom a n)).1.2.2,
                    ((t.searchGo key seq cd (upFrom a n)).1.2.2.length : Int) - 1)])
        ∧ ((t.searchGo key seq cd (upFrom a n)).1.2.2.length ≤ 1 →
          (t.searchGo key seq cd (upFrom a n)).2.collision_logs = t.collision_logs)))
      ∧ (t.table.getD ((t.searchGo key seq cd (upFrom a n)).1.2.2.getLast?.getD 0) none ≠ none →
        (t.searchGo key seq cd (upFrom a n)).2.collision_logs = t.collision_logs)))) := by
  intro n
  induction n with
  | zero =>
    intro a t seq cd hseq hinv
    refine ⟨(fun h => nomatch h), fun _ => ⟨fun hempty => ⟨fun hlen => ?_, fun _ => rfl⟩,
      fun _ => rfl⟩⟩
    rcases hinv with rfl | ⟨last, hlast, hne⟩
    · simp [DoubleHashTable.searchGo] at hlen
    · rw [show (t.searchGo key seq cd (upFrom a 0)).1.2.2 = seq from rfl, hlast] at hempty
      exact absurd hempty hne
  | succ n ih =>
    intro a t seq cd hseq hinv
    show (((t.searchGo key seq cd (a :: upFrom (a + 1) n)).1.1.isSome = true → _)
      ∧ ((t.searchGo key seq cd (a :: upFrom (a + 1) n)).1.1 = none → _))
    simp only [DoubleHashTable.searchGo]
    rcases hslot : t.table.getD (t.probe key a) none with _ | e
    · -- empty slot: stop not-found; log iff a > 0
      simp only [hslot]
      by_cases ha : 0 < a
      · rw [if_pos ha]
        refine ⟨(fun h => nomatch h), fun _ => ⟨fun _ => ⟨fun _ => ⟨List.take_left _ _, ?_⟩,
          fun hlen => ?_⟩, fun hne => ?_⟩⟩
        · rw [logsView_append]
          rfl
        · rw [List.length_append, hseq, List.length_singleton] at hlen
          omega
        · rw [show (seq ++ [t.probe key a]).getLast? = some (t.probe key a)
            from List.getLast?_concat _] at hne
          exact absurd hslot hne
      · rw [if_neg ha]
        refine ⟨(fun h => nomatch h), fun _ => ⟨fun _ => ⟨fun hlen => ?_, fun _ => by trivial⟩,
          fun _ => by trivial⟩⟩
        rw [List.length_append, hseq, List.length_singleton] at hlen
        omega
    · simp only [hslot]
      cases hmatch : (!e.is_deleted && e.product.ma_san_pham == key)
      · -- tombstone or other key: continue
        simp only [hmatch, Bool.false_eq_true, if_false]
        have hseq' : (seq ++ [t.probe key a]).length = a + 1 := by
          rw [List.length_append, hseq]
          rfl
        have hinv' : seq ++ [t.probe key a] = []
            ∨ ∃ last, (seq ++ [t.probe key a]).getLast? = some last
                ∧ t.table.getD last none ≠ none := by
          right
          exact ⟨t.probe key a, List.getLast?_concat _, by rw [hslot]; exact fun h => nomatch h⟩
        exact ih (a + 1) t _ _ hseq' hinv'
      · -- live match: stop found; log iff a > 0
        simp only [hmatch, if_true]
        by_cases ha : 0 < a
        · rw [if_pos ha]
          refine ⟨fun _ => ⟨fun _ => ⟨List.take_left _ _, ?_⟩, fun hlen => ?_⟩,
            fun h => nomatch h⟩
          · rw [logsView_append]
            rfl
          · rw [List.length_append, hseq, List.length_singleton] at hlen
            omega
        · rw [if_neg ha]
          refine ⟨fun _ => ⟨fun hlen => ?_, fun _ => by trivial⟩, fun h => nomatch h⟩
          rw [List.length_append, hseq, List.length_singleton] at hlen
          omega

/-- C8 (amended): the log is append-only with at most one entry per
operation, every appended entry's collision count is its probe-sequence
length minus one, a successful multi-probe insert and a terminating
multi-probe search append exactly one entry, single-probe operations
append none, a failed insert (DuplicateKey or exhaustion) and an
exhausted search append none, and delete appends exactly what its inner
search appends. -/
theorem collision_log_append_discipline (t : DoubleHashTable) (p : Product)
    (key : String) :
    ((t.insert p).1.1 = true →
      ((1 < (t.insert p).1.2.2.length →
        (t.insert p).2.collision_logs.take t.collision_logs.length = t.collision_logs
        ∧ logsView (t.insert p).2.collision_logs
            = logsView t.collision_logs
              ++ [(p.ma_san_pham, "INSERT", (t.insert p).1.2.2,
                  ((t.insert p).1.2.2.length : Int) - 1)])
      ∧ ((t.insert p).1.2.2.length ≤ 1 →
        (t.insert p).2.collision_logs = t.collision_logs)))
    ∧ ((t.insert p).1.1 = false → (t.insert p).2.collision_logs = t.collision_logs)
    ∧ ((t.search key).1.1.isSome = true →
      ((1 < (t.search key).1.2.2.length →
        (t.search key).2.collision_logs.take t.collision_logs.length = t.collision_logs
        ∧ logsView (t.search key).2.collision_logs
            = logsView t.collision_logs
              ++ [(key, "SEARCH", (t.search key).1.2.2,
                  ((t.search key).1.2.2.length : Int) - 1)])
      ∧ ((t.search key).1.2.2.length ≤ 1 →
        (t.search key).2.collision_logs = t.collision_logs)))
    ∧ ((t.search key).1.1 = none →
      ((t.table.getD ((t.search key).1.2.2.getLast?.getD 0) none = none →
        ((1 < (t.search key).1.2.2.length →
          (t.search key).2.collision_logs.take t.collision_logs.length = t.collision_logs
          ∧ logsView (t.search key).2.collision_logs
              = logsView t.collision_logs
                ++ [(key, "SEARCH", (t.search key).1.2.2,
                    ((t.search key).1.2.2.length : Int) - 1)])
        ∧ ((t.search key).1.2.2.length ≤ 1 →
          (t.search key).2.collision_logs = t.collision_logs)))
      ∧ (t.table.getD ((t.search key).1.2.2.getLast?.getD 0) none ≠ none →
        (t.search key).2.collision_logs = t.collision_logs)))
    ∧ (t.delete key).2.collision_logs = (t.search key).2.collision_logs := by
  refine ⟨?_, ?_, ?_, ?_, ?_⟩
  · by_cases hfull : (t.size : Int) ≤ t.count
    · rw [DoubleHashTable.insert, if_pos hfull]
      exact fun h => nomatch h
    · rw [DoubleHashTable.insert, if_neg hfull]
      exact (insertGo_logs p t.size 0 t [] (mkCalcDetails t p.ma_san_pham) rfl).1
  · by_cases hfull : (t.size : Int) ≤ t.count
    · rw [DoubleHashTable.insert, if_pos hfull]
      exact fun _ => rfl
    · rw [DoubleHashTable.insert, if_neg hfull]
      exact (insertGo_logs p t.size 0 t [] (mkCalcDetails t p.ma_san_pham) rfl).2
  · rw [DoubleHashTable.search]
    exact (searchGo_logs key t.size 0 t [] (mkCalcDetails t key) rfl (Or.inl rfl)).1
  · rw [DoubleHashTable.search]
    exact (searchGo_logs key t.size 0 t [] (mkCalcDetails t key) rfl (Or.inl rfl)).2
  · simp only [DoubleHashTable.delete]
    rcases hfound : (t.search key).1.1 with _ | q
    · simp only [hfound]
    · simp only [hfound]

/-- Witness for the amended C8: the colliding insert of "A" into `t5F`
succeeds with probe sequence `[0, 1]` and appends exactly one INSERT
entry with collision count 1. -/
theorem collision_log_append_discipline_witness :
    (t5F.insert prodA).1.1 = true
    ∧ 1 < (t5F.insert prodA).1.2.2.length
    ∧ ((t5F.insert prodA).2.collision_logs.take t5F.collision_logs.length
          = t5F.collision_logs
      ∧ logsView (t5F.insert prodA).2.collision_logs
          = logsView t5F.collision_logs
            ++ [(prodA.ma_san_pham, "INSERT", (t5F.insert prodA).1.2.2,
                ((t5F.insert prodA).1.2.2.length : Int) - 1)]) :=
  ⟨by decide, by decide,
    ((collision_log_append_discipline t5F prodA "A").1 (by decide)).1 (by decide)⟩

/-! Claim C5 machinery: a successful insert leaves the new product live
at the landing slot, and the subsequent search walks the identical probe
path and stops exactly there. -/

theorem getD_set_self (l : List (Option HashEntry)) (n : Nat) (a : Option HashEntry)
    (h : n < l.length) : (l.set n a).getD n none = a := by
  rw [List.getD_eq_getElem?_getD, List.getElem?_set_self (by simpa using h)]
  rfl

theorem getD_set_ne (l : List (Option HashEntry)) (n m : Nat) (a : Option HashEntry)
    (h : n ≠ m) : (l.set n a).getD m none = l.getD m none := by
  rw [List.getD_eq_getElem?_getD, List.getElem?_set_ne h, ← List.getD_eq_getElem?_getD]

/-- The visible result triple of the search loop does not depend on the
diagnostic bundle being threaded through it. -/
theorem searchGo_fst_cd (key : String) :
    ∀ (attempts : List Nat) (t : DoubleHashTable) (seq : List Nat) (cd cd₂ : CalcDetails),
    (t.searchGo key seq cd attempts).1 = (t.searchGo key seq cd₂ attempts).1 := by
  intro attempts
  induction attempts with
  | nil => intro t seq cd cd₂; rfl
  | cons i rest ih =>
    intro t seq cd cd₂
    simp only [DoubleHashTable.searchGo]
    rcases hslot : t.table.getD (t.probe key i) none with _ | e
    · simp only [hslot]
      split <;> rfl
    · simp only [hslot]
      cases hmatch : (!e.is_deleted && e.product.ma_san_pham == key)
      · simp only [hmatch, Bool.false_eq_true, if_false]
        exact ih t _ _ _
      · simp only [hmatch, if_true]
        split <;> rfl

/-- One skipped step of the search loop (tombstone or other key). -/
theorem searchGo_skip (t : DoubleHashTable) (key : String) (seq : List Nat)
    (cd : CalcDetails) (i : Nat) (rest : List Nat) (e : HashEntry)
    (hslot : t.table.getD (t.probe key i) none = some e)
    (hmatch : (!e.is_deleted && e.product.ma_san_pham == key) = false) :
    (t.searchGo key seq cd (i :: rest)).1
      = (t.searchGo key (seq ++ [t.probe key i]) cd rest).1 := by
  simp only [DoubleHashTable.searchGo, hslot, hmatch, Bool.false_eq_true, if_false]
  exact searchGo_fst_cd key rest t _ _ _

/-- One terminating step of the search loop at a live matching slot. -/
theorem searchGo_found_head (t : DoubleHashTable) (key : String) (seq : List Nat)
    (cd : CalcDetails) (i : Nat) (rest : List Nat) (e : HashEntry)
    (hslot : t.table.getD (t.probe key i) none = some e)
    (hmatch : (!e.is_deleted && e.product.ma_san_pham == key) = true) :
    (t.searchGo key seq cd (i :: rest)).1
      = (some e.product, ((t.probe key i : Nat) : Int), seq ++ [t.probe key i]) := by
  simp only [DoubleHashTable.searchGo, hslot, hmatch, if_true]
  split <;> rfl

/-- The insert loop either leaves the slot array unchanged or sets one
previously free slot to the new live entry. -/
theorem insertGo_table_shape (p : Product) :
    ∀ (attempts : List Nat) (t : DoubleHashTable) (seq : List Nat) (cd : CalcDetails),
    (t.insertGo p seq cd attempts).2.table = t.table
    ∨ ∃ land, t.freeAt land = true
        ∧ (t.insertGo p seq cd attempts).2.table
            = t.table.set land (some ⟨p, false⟩) := by
  intro attempts
  induction attempts with
  | nil => intro t seq cd; exact Or.inl rfl
  | cons i rest ih =>
    intro t seq cd
    simp only [DoubleHashTable.insertGo]
    rcases hslot : t.table.getD (t.probe p.ma_san_pham i) none with _ | e
    · simp only [hslot, if_true]
      refine Or.inr ⟨t.probe p.ma_san_pham i, ?_, ?_⟩
      · rw [DoubleHashTable.freeAt, hslot]
      · split <;> rfl
    · simp only [hslot]
      cases hdel : e.is_deleted
      · simp only [hdel, Bool.false_eq_true, if_false]
        by_cases hkeyP : e.product.ma_san_pham = p.ma_san_pham
        · have hkey : (e.product.ma_san_pham == p.ma_san_pham) = true :=
            beq_iff_eq.mpr hkeyP
          simp only [hkey, if_true]
          exact Or.inl (by trivial)
        · have hkey : (e.product.ma_san_pham == p.ma_san_pham) = false := by
            simpa using hkeyP
          simp only [hkey, Bool.false_eq_true, if_false]
          by_cases h0P : i = 0
          · have h0 : (i == 0) = true := beq_iff_eq.mpr h0P
            simp only [h0, if_true]
            exact ih { t with collision_count := t.collision_count + 1 } _ _
          · have h0 : (i == 0) = false := by simpa using h0P
            simp only [h0, Bool.false_eq_true, if_false]
            exact ih t _ _
      · simp only [hdel, if_true]
        refine Or.inr ⟨t.probe p.ma_san_pham i, ?_, ?_⟩
        · rw [DoubleHashTable.freeAt, hslot]
          exact hdel
        · split <;> rfl

theorem insertGo_then_searchGo (p : Product) :
    ∀ (attempts : List Nat) (t : DoubleHashTable) (seq : List Nat) (cd cd₂ : CalcDetails),
    0 < t.size → t.table.length = t.size →
    (t.insertGo p seq cd attempts).1.1 = true →
    ((t.insertGo p seq cd attempts).2.searchGo p.ma_san_pham seq cd₂ attempts).1
      = (some p,
          (((t.insertGo p seq cd attempts).1.2.2.getLast?.getD 0 : Nat) : Int),
          (t.insertGo p seq cd attempts).1.2.2) := by
  intro attempts
  induction attempts with
  | nil =>
    intro t seq cd cd₂ _ _ hsucc
    exact nomatch hsucc
  | cons i rest ih =>
    intro t seq cd cd₂ hsz hlen hsucc
    have hpos_lt : t.probe p.ma_san_pham i < t.size := Nat.mod_lt _ (by omega)
    simp only [DoubleHashTable.insertGo] at hsucc ⊢
    rcases hslot : t.table.getD (t.probe p.ma_san_pham i) none with _ | e
    · -- landing in an empty slot
      simp only [hslot, if_true] at hsucc ⊢
      by_cases hi : 0 < i
      · rw [if_pos hi]
        rw [searchGo_found_head _ p.ma_san_pham seq cd₂ i rest ⟨p, false⟩
          (by
            rw [probe_congr (rfl : _ = t.size) p.ma_san_pham i]
            exact getD_set_self t.table _ _ (by rw [hlen]; exact hpos_lt))
          (by simp)]
        rw [probe_congr (rfl : _ = t.size) p.ma_san_pham i]
        rw [List.getLast?_concat]
        rfl
      · rw [if_neg hi]
        rw [searchGo_found_head _ p.ma_san_pham seq cd₂ i rest ⟨p, false⟩
          (by
            rw [probe_congr (rfl : _ = t.size) p.ma_san_pham i]
            exact getD_set_self t.table _ _ (by rw [hlen]; exact hpos_lt))
          (by simp)]
        rw [probe_congr (rfl : _ = t.size) p.ma_san_pham i]
        rw [List.getLast?_concat]
        rfl
    · simp only [hslot] at hsucc ⊢
      cases hdel : e.is_deleted
      · simp only [hdel, Bool.false_eq_true, if_false] at hsucc ⊢
        by_cases hkeyP : e.product.ma_san_pham = p.ma_san_pham
        · -- duplicate: insert failed
          have hkey : (e.product.ma_san_pham == p.ma_san_pham) = true :=
            beq_iff_eq.mpr hkeyP
          simp only [hkey, if_true] at hsucc
          exact nomatch hsucc
        · -- blocked: both walks skip this slot
          have hkey : (e.product.ma_san_pham == p.ma_san_pham) = false := by
            simpa using hkeyP
          simp only [hkey, Bool.false_eq_true, if_false] at hsucc ⊢
          by_cases h0P : i = 0
          · -- i = 0: collision counter bumped before recursing
            have h0 : (i == 0) = true := beq_iff_eq.mpr h0P
            simp only [h0, if_true] at hsucc ⊢
            have hszf : ((DoubleHashTable.insertGo
                { t with collision_count := t.collision_count + 1 } p
                (seq ++ [t.probe p.ma_san_pham i])
                (withStep cd (insProbeStep t p.ma_san_pham i)) rest).2).size = t.size :=
              (insertGo_size p rest _ _ _).1
            have hprobe : ((DoubleHashTable.insertGo
                { t with collision_count := t.collision_count + 1 } p
                (seq ++ [t.probe p.ma_san_pham i])
                (withStep cd (insProbeStep t p.ma_san_pham i)) rest).2).probe
                p.ma_san_pham i = t.probe p.ma_san_pham i := probe_congr hszf p.ma_san_pham i
            have hslotf : ((DoubleHashTable.insertGo
                { t with collision_count := t.collision_count + 1 } p
                (seq ++ [t.probe p.ma_san_pham i])
                (withStep cd (insProbeStep t p.ma_san_pham i)) rest).2).table.getD
                (t.probe p.ma_san_pham i) none = some e := by
              rcases insertGo_table_shape p rest
                { t with collision_count := t.collision_count + 1 }
                (seq ++ [t.probe p.ma_san_pham i])
                (withStep cd (insProbeStep t p.ma_san_pham i))
                with h | ⟨land, hfree, htab⟩
              · rw [h]
                exact hslot
              · rw [htab]
                have hne : land ≠ t.probe p.ma_san_pham i := by
                  intro hEq
                  have hfree' : t.freeAt land = true := hfree
                  rw [DoubleHashTable.freeAt, hEq, hslot] at hfree'
                  have hx : e.is_deleted = true := hfree'
                  rw [hdel] at hx
                  exact nomatch hx
                rw [getD_set_ne _ _ _ _ hne]
                exact hslot
            rw [searchGo_skip ((DoubleHashTable.insertGo
                { t with collision_count := t.collision_count + 1 } p
                (seq ++ [t.probe p.ma_san_pham i])
                (withStep cd (insProbeStep t p.ma_san_pham i)) rest).2)
              p.ma_san_pham seq cd₂ i rest e (by rw [hprobe]; exact hslotf)
              (by rw [hdel, hkey]; rfl)]
            rw [hprobe]
            exact ih { t with collision_count := t.collision_count + 1 } _ _ cd₂
              hsz hlen hsucc
          · -- i ≠ 0: state unchanged
            have h0 : (i == 0) = false := by simpa using h0P
            simp only [h0, Bool.false_eq_true, if_false] at hsucc ⊢
            have hszf : ((t.insertGo p (seq ++ [t.probe p.ma_san_pham i])
                (withStep cd (insProbeStep t p.ma_san_pham i)) rest).2).size
                = t.size := (insertGo_size p rest t _ _).1
            have hprobe : ((t.insertGo p (seq ++ [t.probe p.ma_san_pham i])
                (withStep cd (insProbeStep t p.ma_san_pham i)) rest).2).probe
                p.ma_san_pham i = t.probe p.ma_san_pham i := probe_congr hszf p.ma_san_pham i
            have hslotf : ((t.insertGo p (seq ++ [t.probe p.ma_san_pham i])
                (withStep cd (insProbeStep t p.ma_san_pham i)) rest).2).table.getD
                (t.probe p.ma_san_pham i) none = some e := by
              rcases insertGo_table_shape p rest t (seq ++ [t.probe p.ma_san_pham i])
                (withStep cd (insProbeStep t p.ma_san_pham i))
                with h | ⟨land, hfree, htab⟩
              · rw [h, hslot]
              · rw [htab]
                have hne : land ≠ t.probe p.ma_san_pham i := by
                  intro hEq
                  rw [DoubleHashTable.freeAt, hEq, hslot] at hfree
                  have hx : e.is_deleted = true := hfree
                  rw [hdel] at hx
                  exact nomatch hx
                rw [getD_set_ne _ _ _ _ hne, hslot]
            rw [searchGo_skip ((t.insertGo p (seq ++ [t.probe p.ma_san_pham i])
                (withStep cd (insProbeStep t p.ma_san_pham i)) rest).2)
              p.ma_san_pham seq cd₂ i rest e (by rw [hprobe]; exact hslotf)
              (by rw [hdel, hkey]; rfl)]
            rw [hprobe]
            exact ih t _ _ cd₂ hsz hlen hsucc
      · -- landing in a tombstoned slot
        simp only [hdel, if_true] at hsucc ⊢
        by_cases hi : 0 < i
        · rw [if_pos hi]
          rw [searchGo_found_head _ p.ma_san_pham seq cd₂ i rest ⟨p, false⟩
            (by
              rw [probe_congr (rfl : _ = t.size) p.ma_san_pham i]
              exact getD_set_self t.table _ _ (by rw [hlen]; exact hpos_lt))
            (by simp)]
          rw [probe_congr (rfl : _ = t.size) p.ma_san_pham i]
          rw [List.getLast?_concat]
          rfl
        · rw [if_neg hi]
          rw [searchGo_found_head _ p.ma_san_pham seq cd₂ i rest ⟨p, false⟩
            (by
              rw [probe_congr (rfl : _ = t.size) p.ma_san_pham i]
              exact getD_set_self t.table _ _ (by rw [hlen]; exact hpos_lt))
            (by simp)]
          rw [probe_congr (rfl : _ = t.size) p.ma_san_pham i]
          rw [List.getLast?_concat]
          rfl

/-- C5 (amended): whenever an insert succeeds, an immediately following
search for the inserted key returns that product, the landing position
(the last element of insert's probe sequence), and a probe sequence
identical to the one insert returned. -/
theorem insert_then_search_agree (t : DoubleHashTable) (p : Product)
    (hlen : t.table.length = t.size)
    (hsucc : (t.insert p).1.1 = true) :
    ((t.insert p).2.search p.ma_san_pham).1
      = (some p, (((t.insert p).1.2.2.getLast?.getD 0 : Nat) : Int),
          (t.insert p).1.2.2) := by
  by_cases hfull : (t.size : Int) ≤ t.count
  · rw [DoubleHashTable.insert, if_pos hfull] at hsucc
    exact nomatch hsucc
  · rw [DoubleHashTable.insert, if_neg hfull] at hsucc ⊢
    rcases Nat.eq_zero_or_pos t.size with hz | hpos
    · rw [hz] at hsucc
      exact nomatch hsucc
    · rw [DoubleHashTable.search]
      have hsz2 : ((t.insertGo p [] (mkCalcDetails t p.ma_san_pham)
          (upFrom 0 t.size)).2).size = t.size := (insertGo_size p _ t _ _).1
      rw [hsz2]
      exact insertGo_then_searchGo p (upFrom 0 t.size) t [] _ _ hpos hlen hsucc

/-- Witness for the amended C5: after the colliding insert of "A" into
`t5F`, searching "A" returns it at the landing slot with probe
sequence `[0, 1]`. -/
theorem insert_then_search_agree_witness :
    t5F.table.length = t5F.size
    ∧ (t5F.insert prodA).1.1 = true
    ∧ ((t5F.insert prodA).2.search prodA.ma_san_pham).1
        = (some prodA, (((t5F.insert prodA).1.2.2.getLast?.getD 0 : Nat) : Int),
            (t5F.insert prodA).1.2.2) :=
  ⟨by decide, by decide, insert_then_search_agree t5F prodA (by decide) (by decide)⟩

/-! Claim C6 machinery: what search can return, and the invariance of a
search under tombstoning a slot that holds a different key. -/

theorem searchGo_empty_head (t : DoubleHashTable) (key : String) (seq : List Nat)
    (cd : CalcDetails) (i : Nat) (rest : List Nat)
    (hslot : t.table.getD (t.probe key i) none = none) :
    (t.searchGo key seq cd (i :: rest)).1 = (none, -1, seq ++ [t.probe key i]) := by
  simp only [DoubleHashTable.searchGo, hslot]
  split <;> rfl

theorem searchGo_found_live (key : String) :
    ∀ (attempts : List Nat) (t : DoubleHashTable) (seq : List Nat) (cd : CalcDetails)
      (q : Product),
    (t.searchGo key seq cd attempts).1.1 = some q →
    ∃ n : Nat, (t.searchGo key seq cd attempts).1.2.1 = (n : Int)
      ∧ t.table.getD n none = some ⟨q, false⟩ ∧ q.ma_san_pham = key := by
  intro attempts
  induction attempts with
  | nil =>
    intro t seq cd q hfound
    exact nomatch hfound
  | cons i rest ih =>
    intro t seq cd q hfound
    rcases hslot : t.table.getD (t.probe key i) none with _ | e
    · rw [searchGo_empty_head t key seq cd i rest hslot] at hfound
      exact nomatch hfound
    · by_cases hmP : (!e.is_deleted && e.product.ma_san_pham == key) = true
      · rw [searchGo_found_head t key seq cd i rest e hslot hmP] at hfound ⊢
        simp only [Option.some.injEq] at hfound
        obtain ⟨hdel, hkeyB⟩ := Bool.and_eq_true_iff.mp hmP
        rw [Bool.not_eq_true'] at hdel
        refine ⟨t.probe key i, rfl, ?_, ?_⟩
        · rw [hslot, ← hfound, ← hdel]
        · rw [← hfound]
          exact beq_iff_eq.mp hkeyB
      · have hmF : (!e.is_deleted && e.product.ma_san_pham == key) = false := by
          simpa using hmP
        rw [searchGo_skip t key seq cd i rest e hslot hmF] at hfound ⊢
        exact ih t _ _ q hfound

theorem getD_mem (l : List (Option HashEntry)) (n : Nat) (x : HashEntry)
    (h : l.getD n none = some x) : some x ∈ l := by
  rw [List.getD_eq_getElem?_getD] at h
  rcases hx : l[n]? with _ | s
  · rw [hx] at h
    exact nomatch h
  · rw [hx] at h
    rw [show (some s).getD none = s from rfl] at h
    subst h
    exact List.mem_iff_getElem?.mpr ⟨n, hx⟩

/-- A search for a key that no live slot holds returns NotFound. -/
theorem search_none_of_not_live (t : DoubleHashTable) (key : String)
    (h : t.hasLiveKey key = false) : (t.search key).1.1 = none := by
  rcases hres : (t.search key).1.1 with _ | q
  · rfl
  · obtain ⟨n, hpos, hslot, hkey⟩ :=
      searchGo_found_live key (upFrom 0 t.size) t [] (mkCalcDetails t key) q hres
    have hmem : some (⟨q, false⟩ : HashEntry) ∈ t.table := getD_mem _ _ _ hslot
    have hlive : t.hasLiveKey key = true := by
      rw [DoubleHashTable.hasLiveKey, List.any_eq_true]
      exact ⟨some ⟨q, false⟩, hmem, by simp [slotLiveKey, hkey]⟩
    rw [h] at hlive
    exact nomatch hlive

/-- Two tables of the same size whose slots dictate the same search
decisions for a key produce the same visible search-loop result. -/
theorem searchGo_congr (key : String) :
    ∀ (attempts : List Nat) (t₁ t₂ : DoubleHashTable) (seq : List Nat)
      (cd₁ cd₂ : CalcDetails),
    t₁.size = t₂.size →
    (∀ i ∈ attempts, searchDecision key (t₁.table.getD (t₁.probe key i) none)
        = searchDecision key (t₂.table.getD (t₂.probe key i) none)) →
    (t₁.searchGo key seq cd₁ attempts).1 = (t₂.searchGo key seq cd₂ attempts).1 := by
  intro attempts
  induction attempts with
  | nil => intro t₁ t₂ seq cd₁ cd₂ _ _; rfl
  | cons i rest ih =>
    intro t₁ t₂ seq cd₁ cd₂ hsz hdec
    have hd := hdec i (List.mem_cons_self i rest)
    have hp : t₁.probe key i = t₂.probe key i := probe_congr hsz key i
    rcases hslot1 : t₁.table.getD (t₁.probe key i) none with _ | e₁
    · rw [hslot1] at hd
      simp only [searchDecision] at hd
      rcases hslot2 : t₂.table.getD (t₂.probe key i) none with _ | e₂
      · rw [searchGo_empty_head t₁ key seq cd₁ i rest hslot1,
          searchGo_empty_head t₂ key seq cd₂ i rest hslot2, hp]
      · rw [hslot2] at hd
        simp only [searchDecision] at hd
        split at hd
        · simp at hd
        · exact nomatch hd
    · rw [hslot1] at hd
      simp only [searchDecision] at hd
      split at hd
      · next hm1 =>
        rcases hslot2 : t₂.table.getD (t₂.probe key i) none with _ | e₂
        · rw [hslot2] at hd
          simp only [searchDecision] at hd
          simp at hd
        · rw [hslot2] at hd
          simp only [searchDecision] at hd
          split at hd
          · next hm2 =>
            simp only [Option.some.injEq] at hd
            rw [searchGo_found_head t₁ key seq cd₁ i rest e₁ hslot1 hm1,
              searchGo_found_head t₂ key seq cd₂ i rest e₂ hslot2 hm2, hp, hd]
          · exact nomatch hd
      · next hm1 =>
        rcases hslot2 : t₂.table.getD (t₂.probe key i) none with _ | e₂
        · rw [hslot2] at hd
          simp only [searchDecision] at hd
          exact nomatch hd
        · rw [hslot2] at hd
          simp only [searchDecision] at hd
          split at hd
          · exact nomatch hd
          · next hm2 =>
            rw [searchGo_skip t₁ key seq cd₁ i rest e₁ hslot1 (by simpa using hm1),
              searchGo_skip t₂ key seq cd₂ i rest e₂ hslot2 (by simpa using hm2), hp]
            exact ih t₁ t₂ _ cd₁ cd₂ hsz (fun m hm => hdec m (List.mem_cons_of_mem i hm))

theorem search_fst_congr (t₁ t₂ : DoubleHashTable) (key : String)
    (hsz : t₁.size = t₂.size)
    (hdec : ∀ i, searchDecision key (t₁.table.getD (t₁.probe key i) none)
        = searchDecision key (t₂.table.getD (t₂.probe key i) none)) :
    (t₁.search key).1 = (t₂.search key).1 := by
  rw [DoubleHashTable.search, DoubleHashTable.search, hsz]
  exact searchGo_congr key (upFrom 0 t₂.size) t₁ t₂ [] _ _ hsz (fun i _ => hdec i)

/-- After a delete the state either kept its slot array (key absent) or
tombstoned exactly the slot the inner search found. -/
theorem delete_state_shape (t : DoubleHashTable) (K : String) :
    (t.delete K).2.size = t.size
    ∧ ((t.delete K).2.table = t.table
      ∨ ∃ n qK, (t.search K).1.1 = some qK
          ∧ t.table.getD n none = some ⟨qK, false⟩
          ∧ qK.ma_san_pham = K
          ∧ (t.delete K).2.table = t.table.set n (some ⟨qK, true⟩)) := by
  rw [DoubleHashTable.delete]
  rcases hfK : (t.search K).1.1 with _ | qK
  · simp only [hfK]
    obtain ⟨hsz, htab, -, -⟩ := search_state t K
    exact ⟨hsz, Or.inl htab⟩
  · simp only [hfK]
    obtain ⟨n, hposn, hslotn, hkeyn⟩ :=
      searchGo_found_live K (upFrom 0 t.size) t [] (mkCalcDetails t K) qK hfK
    obtain ⟨hsz, htab, -, -⟩ := search_state t K
    refine ⟨hsz, Or.inr ⟨n, qK, rfl, hslotn, hkeyn, ?_⟩⟩
    have hton : (t.search K).1.2.1.toNat = n := by
      have hposn' : (t.search K).1.2.1 = (n : Int) := hposn
      rw [hposn']
      simp
    rw [hton, htab, hslotn]

/-- Tombstoning the slot of key `K` never changes the visible result of
a search for a different key `K'`. -/
theorem delete_preserves_other_search (t : DoubleHashTable) (K K' : String)
    (q : Product)
    (hne : K' ≠ K) (_hfound : (t.search K').1.1 = some q) :
    ((t.delete K).2.search K').1 = (t.search K').1 := by
  obtain ⟨hsz, hshape⟩ := delete_state_shape t K
  apply search_fst_congr _ _ K' hsz
  intro i
  rcases hshape with htab | ⟨n, qK, hfK, hslotn, hkeyn, htab⟩
  · rw [htab, probe_congr hsz K' i]
  · rw [htab, probe_congr hsz K' i]
    by_cases hni : n = t.probe K' i
    · rw [← hni]
      have hlt : n < t.table.length := by
        by_contra hge
        rw [List.getD_eq_default _ _ (by omega)] at hslotn
        exact nomatch hslotn
      rw [getD_set_self _ _ _ hlt, hslotn]
      simp only [searchDecision]
      have hK : (qK.ma_san_pham == K') = false := by
        rw [hkeyn]
        exact beq_eq_false_iff_ne.mpr (Ne.symm hne)
      rw [hK]
      simp
    · rw [getD_set_ne _ _ _ _ hni]

/-- C6 (amended): after a delete of K succeeds, a search for K returns
NotFound provided no live slot still holds K (which can fail in the
duplicate-key states of the C1 counterexample); and a search for any
other key found before the delete returns the identical result triple
after it, probing straight past K's tombstoned slot. -/
theorem tombstone_semantics (t : DoubleHashTable) (K K' : String) (q : Product) :
    ((t.delete K).1.1 = true → (t.delete K).2.hasLiveKey K = false →
        ((t.delete K).2.search K).1.1 = none)
    ∧ (K' ≠ K → (t.search K').1.1 = some q →
        ((t.delete K).2.search K').1 = (t.search K').1) :=
  ⟨fun _ h2 => search_none_of_not_live _ K h2,
   fun hne hf => delete_preserves_other_search t K K' q hne hf⟩

/-- Witness for the amended C6: delete "F" from `t5FA`, then search both
"F" (NotFound) and "A" (unchanged result). -/
theorem tombstone_semantics_witness :
    (t5FA.delete "F").1.1 = true
    ∧ (t5FA.delete "F").2.hasLiveKey "F" = false
    ∧ ((t5FA.delete "F").2.search "F").1.1 = none
    ∧ ("A" : String) ≠ "F"
    ∧ (t5FA.search "A").1.1 = some prodA
    ∧ ((t5FA.delete "F").2.search "A").1 = (t5FA.search "A").1 :=
  ⟨by decide, by decide,
    (tombstone_semantics t5FA "F" "A" prodA).1 (by decide) (by decide),
    by decide, by decide,
    (tombstone_semantics t5FA "F" "A" prodA).2 (by decide) (by decide)⟩

/-! Claim C2 machinery: with a prime capacity the probe map is surjective,
so an insert below capacity always reaches a free slot (or stops earlier
at a duplicate). -/

/-- Fewer live slots than the capacity leaves some free (empty or
tombstoned) slot. -/
theorem exists_free_slot (t : DoubleHashTable) (hlen : t.table.length = t.size)
    (hlive : t.liveCount < t.size) :
    ∃ f, f < t.size ∧ t.freeAt f = true := by
  rw [DoubleHashTable.liveCount] at hlive
  have hne : ¬ (∀ s ∈ t.table, slotLive s = true) := by
    intro hall
    have hc := List.countP_eq_length.mpr hall
    rw [hc, hlen] at hlive
    omega
  push_neg at hne
  obtain ⟨s, hs, hsl⟩ := hne
  have hslF : slotLive s = false := by simpa using hsl
  obtain ⟨n, hn, hgetEq⟩ := List.mem_iff_getElem.mp hs
  refine ⟨n, by omega, ?_⟩
  rw [DoubleHashTable.freeAt]
  have hgd : t.table.getD n none = t.table[n] := by
    rw [List.getD_eq_getElem?_getD, List.getElem?_eq_getElem hn]
    rfl
  rw [hgd, hgetEq]
  cases s with
  | none => rfl
  | some e =>
    show e.is_deleted = true
    simpa [slotLive] using hslF

/-- For a prime capacity, `h2` is invertible modulo the capacity, so the
probe sequence of any key reaches every slot within capacity attempts. -/
theorem probe_surj (t : DoubleHashTable) (key : String) (f : Nat)
    (hp : Nat.Prime t.size) (hf : f < t.size) :
    ∃ i, i < t.size ∧ t.probe key i = f := by
  haveI : Fact (Nat.Prime t.size) := ⟨hp⟩
  haveI : NeZero t.size := ⟨by have := hp.two_le; omega⟩
  have hsz2 : 2 ≤ t.size := hp.two_le
  have hRle : get_prime_less_than t.size ≤ t.size - 1 := by
    have h := primeScan_le (t.size - 1)
    rw [max_eq_right (by omega : (1:ℕ) ≤ t.size - 1)] at h
    exact h
  obtain ⟨hh2pos, hh2le⟩ := hash2_bounds t key
  have hne0 : (t.hash2 key : ZMod t.size) ≠ 0 := by
    rw [Ne, ZMod.natCast_zmod_eq_zero_iff_dvd]
    intro hdvd
    have hle := Nat.le_of_dvd (by omega) hdvd
    omega
  refine ⟨(((f : ZMod t.size) - (t.hash1 key : ZMod t.size))
      * ((t.hash2 key : ZMod t.size))⁻¹).val, ZMod.val_lt _, ?_⟩
  rw [DoubleHashTable.probe]
  have hcast : ((t.hash1 key
      + (((f : ZMod t.size) - (t.hash1 key : ZMod t.size))
        * ((t.hash2 key : ZMod t.size))⁻¹).val * t.hash2 key : ℕ) : ZMod t.size)
      = ((f : ℕ) : ZMod t.size) := by
    push_cast
    rw [ZMod.natCast_zmod_val, mul_assoc, inv_mul_cancel₀ hne0, mul_one]
    ring
  have hmod := (ZMod.natCast_eq_natCast_iff' _ _ _).mp hcast
  rw [Nat.mod_eq_of_lt hf] at hmod
  exact hmod

/-- If some attempt in the list probes a free slot or a live slot with
the inserted key, the insert loop terminates with success or with the
duplicate-key failure — never by exhausting the list. -/
theorem insertGo_lands (p : Product) :
    ∀ (attempts : List Nat) (t : DoubleHashTable) (seq : List Nat) (cd : CalcDetails),
    (∃ i ∈ attempts, t.freeAt (t.probe p.ma_san_pham i) = true
        ∨ t.liveKeyAt p.ma_san_pham (t.probe p.ma_san_pham i) = true) →
    (t.insertGo p seq cd attempts).1.1 = true
      ∨ (t.insertGo p seq cd attempts).1.2.1 = "Product code already exists!" := by
  intro attempts
  induction attempts with
  | nil =>
    intro t seq cd hw
    obtain ⟨i, hi, -⟩ := hw
    exact absurd hi (List.not_mem_nil i)
  | cons j rest ih =>
    intro t seq cd hw
    simp only [DoubleHashTable.insertGo]
    rcases hslot : t.table.getD (t.probe p.ma_san_pham j) none with _ | e
    · simp only [hslot, if_true]
      refine Or.inl ?_
      split
      · rfl
      · rfl
    · simp only [hslot]
      cases hdel : e.is_deleted
      · simp only [Bool.false_eq_true, if_false]
        by_cases hkeyP : e.product.ma_san_pham = p.ma_san_pham
        · have hkey : (e.product.ma_san_pham == p.ma_san_pham) = true :=
            beq_iff_eq.mpr hkeyP
          simp only [hkey, if_true]
          exact Or.inr (by trivial)
        · have hkey : (e.product.ma_san_pham == p.ma_san_pham) = false := by
            simpa using hkeyP
          simp only [hkey, Bool.false_eq_true, if_false]
          obtain ⟨i, hi, hfl⟩ := hw
          rcases List.mem_cons.mp hi with hij | hirest
          · exfalso
            subst hij
            rcases hfl with hfree | hlivek
            · rw [DoubleHashTable.freeAt, hslot] at hfree
              have hx : e.is_deleted = true := hfree
              rw [hdel] at hx
              exact nomatch hx
            · rw [DoubleHashTable.liveKeyAt, hslot] at hlivek
              have hx : (!e.is_deleted && e.product.ma_san_pham == p.ma_san_pham)
                  = true := hlivek
              rw [hkey, Bool.and_false] at hx
              exact nomatch hx
          · by_cases hj0 : j = 0
            · have hj0b : (j == 0) = true := beq_iff_eq.mpr hj0
              simp only [hj0b, if_true]
              exact ih { t with collision_count := t.collision_count + 1 } _ _
                ⟨i, hirest, hfl⟩
            · have hj0b : (j == 0) = false := by simpa using hj0
              simp only [hj0b, Bool.false_eq_true, if_false]
              exact ih t _ _ ⟨i, hirest, hfl⟩
      · simp only [hdel, if_true]
        refine Or.inl ?_
        split
        · rfl
        · rfl

/-- C2 (amended): with a prime capacity, an insert into a table whose
live counter and live-slot count are both below capacity ends in success
or in the duplicate-key failure within capacity attempts — the
loop-exhausted failure branch is unreachable. -/
theorem insert_lands_when_prime (t : DoubleHashTable) (p : Product)
    (hlen : t.table.length = t.size)
    (hp : Nat.Prime t.size)
    (hcnt : t.count < (t.size : Int))
    (hlive : t.liveCount < t.size) :
    (t.insert p).1.1 = true
      ∨ (t.insert p).1.2.1 = "Product code already exists!" := by
  have hfull : ¬ ((t.size : Int) ≤ t.count) := by omega
  rw [DoubleHashTable.insert, if_neg hfull]
  obtain ⟨f, hf, hfree⟩ := exists_free_slot t hlen hlive
  obtain ⟨i, hilt, hpi⟩ := probe_surj t p.ma_san_pham f hp hf
  apply insertGo_lands p (upFrom 0 t.size) t [] (mkCalcDetails t p.ma_san_pham)
  exact ⟨i, (mem_upFrom t.size 0 i).mpr ⟨Nat.zero_le i, by omega⟩,
    Or.inl (by rw [hpi]; exact hfree)⟩

/-- Witness for the amended C2: the prime-capacity table `t5F` with one
live entry accepts the fresh key "C". -/
theorem insert_lands_when_prime_witness :
    t5F.table.length = t5F.size
    ∧ Nat.Prime t5F.size
    ∧ t5F.count < (t5F.size : Int)
    ∧ t5F.liveCount < t5F.size
    ∧ ((t5F.insert prodC).1.1 = true
      ∨ (t5F.insert prodC).1.2.1 = "Product code already exists!") :=
  ⟨by decide, by decide, by decide, by decide,
    insert_lands_when_prime t5F prodC (by decide) (by decide) (by decide) (by decide)⟩

end DHash
